import Mathlib

/-!
Verification of the skip-list container from include/skip_list.hpp.

The C++ code stores nodes behind shared pointers; here the heap is made
explicit: a state holds an arena (a list of node records) and every pointer
is an arena index wrapped in Option (none models nullptr).  Index 0 is the
sentinel head node, allocated by the constructor.  The comparator is a
linear order on the element type; the element equality used by the code,
neither argument less than the other, coincides with propositional equality
under a linear order.  The random source is externalised: insert_impl takes
the level that random_level would have drawn, and random_level itself is a
function of the sequence of draw outcomes.  Loops that chase pointers are
written with fuel equal to the arena size, which suffices on every state
whose chains are duplicate-free (proved below for all reachable states).
-/

namespace StlSkipList

def MAX_LEVEL : Nat := 32

/-- Model of SkipListNode: a value, the forward array (arena indices, none
is nullptr) and the fixed level. -/
structure Node (α : Type) where
  value : α
  forward : List (Option Nat)
  level : Nat
deriving DecidableEq, Repr

/-- Node construction, SkipListNode(val, lvl): the forward vector is resized
to lvl + 1 null entries. -/
def mkNode {α : Type} (val : α) (lvl : Nat) : Node α :=
  ⟨val, List.replicate (lvl + 1) none, lvl⟩

/-- Model of the container state: the node arena (index 0 is the sentinel
head), size_ and max_level_ as in the C++ class. -/
structure skip_list (α : Type) where
  nodes : List (Node α)
  size_ : Nat
  max_level_ : Nat
deriving DecidableEq, Repr

variable {α : Type} [LinearOrder α] [Inhabited α]

/-- Placeholder node returned by out-of-range arena lookups; reachable code
never produces such a lookup (proved via the invariants below). -/
def dummyNode : Node α := ⟨default, [], 0⟩

/-- Arena lookup. -/
def getNode (s : skip_list α) (idx : Nat) : Node α :=
  s.nodes.getD idx dummyNode

/-- Reading node->forward[i] (nullptr when absent). -/
def next (s : skip_list α) (idx i : Nat) : Option Nat :=
  (getNode s idx).forward.getD i none

/-- Reading head_->forward[i]. -/
def headFwd (s : skip_list α) (i : Nat) : Option Nat :=
  next s 0 i

/-- The default-constructed container: head_ = make_shared Node(T(), MAX_LEVEL),
size_ = 0, max_level_ = 0.  Note the head forward array gets MAX_LEVEL + 1
slots, because the node constructor resizes to level + 1. -/
def newList (α : Type) [Inhabited α] : skip_list α :=
  ⟨[mkNode default MAX_LEVEL], 0, 0⟩

/-- Iterator model: Option of an arena index; none is the end iterator and
a default-constructed iterator. -/
def iterEnd : Option Nat := none

/-- Iterator dereference, operator*: throws on a null iterator. -/
def iterDeref (s : skip_list α) (p : Option Nat) : Except String α :=
  match p with
  | none => .error "Dereferencing null iterator"
  | some idx => .ok (getNode s idx).value

/-- Iterator member access, operator->: throws on a null iterator. -/
def iterArrow (s : skip_list α) (p : Option Nat) : Except String α :=
  match p with
  | none => .error "Accessing null iterator"
  | some idx => .ok (getNode s idx).value

/-- Iterator increment, operator++: if the iterator holds a node whose
forward vector is nonempty, follow forward[0]; otherwise become null. -/
def iterSucc (s : skip_list α) (p : Option Nat) : Option Nat :=
  match p with
  | none => none
  | some idx =>
      if (getNode s idx).forward.isEmpty then none
      else (getNode s idx).forward.getD 0 none

/-- Model of begin(): head_->forward[0]; on a moved-from list head_ is a
null shared pointer (arena empty) and the access faults. -/
def beginE (s : skip_list α) : Except String (Option Nat) :=
  match s.nodes with
  | [] => .error "null head"
  | _ => .ok (headFwd s 0)

/-- Model of size(). -/
def size (s : skip_list α) : Nat := s.size_

/-- Model of empty(). -/
def emptyb (s : skip_list α) : Bool := s.size_ == 0

/-- Model of clear(): head_->forward.clear() then resize(MAX_LEVEL), so the
head forward array becomes MAX_LEVEL null slots; size_ and max_level_ reset. -/
def clear (s : skip_list α) : skip_list α :=
  ⟨s.nodes.set 0
      (let h := s.nodes.getD 0 dummyNode
       { h with forward := List.replicate MAX_LEVEL none }),
   0, 0⟩

/-- Model of swap(): every member is exchanged. -/
def swap (s t : skip_list α) : skip_list α × skip_list α := (t, s)

/-- Model of the move constructor: the destination steals head_, size_ and
max_level_; the source keeps a null head_ (empty arena) with size_ = 0 and
max_level_ = 0. -/
def moveCtor (s : skip_list α) : skip_list α × skip_list α :=
  (⟨s.nodes, s.size_, s.max_level_⟩, ⟨[], 0, 0⟩)

/-- The inner while loop of the search skeleton at one level: advance along
forward[i] while the next node exists and its value satisfies p (for the
find and lower_bound and insert walks p v is v < key; for the upper_bound
walk p v is not key < v).  Fuel bounds the pointer chase. -/
def walkAux (s : skip_list α) (p : α → Bool) (i : Nat) : Nat → Nat → Nat
  | 0, cur => cur
  | fuel + 1, cur =>
      match next s cur i with
      | none => cur
      | some nxt =>
          if p (getNode s nxt).value then walkAux s p i fuel nxt else cur

/-- The level descent of the search skeleton, from level i down to level 0. -/
def descendAux (s : skip_list α) (p : α → Bool) : Nat → Nat → Nat
  | 0, cur => walkAux s p 0 s.nodes.length cur
  | i + 1, cur => descendAux s p i (walkAux s p (i + 1) s.nodes.length cur)

/-- The strictly-less walk predicate comp_(v, key). -/
def ltKey (key : α) : α → Bool := fun v => decide (v < key)

/-- The not-greater walk predicate !comp_(key, v). -/
def leKey (key : α) : α → Bool := fun v => decide (¬ key < v)

/-- Model of lower_bound_impl: descend with the strictly-less walk from
max_level_ at the head, then return current->forward[0]. -/
def lower_bound_impl (s : skip_list α) (key : α) : Option Nat :=
  next s (descendAux s (ltKey key) s.max_level_ 0) 0

/-- Model of upper_bound_impl: descend with the not-greater walk from
max_level_ at the head, then return current->forward[0]. -/
def upper_bound_impl (s : skip_list α) (key : α) : Option Nat :=
  next s (descendAux s (leKey key) s.max_level_ 0) 0

/-- Model of find_impl: descend, step to forward[0], and return that node
when it exists and compares equal to the key (neither less than the other). -/
def find_impl (s : skip_list α) (key : α) : Option Nat :=
  match next s (descendAux s (ltKey key) s.max_level_ 0) 0 with
  | some c =>
      if ¬ key < (getNode s c).value ∧ ¬ (getNode s c).value < key then some c
      else none
  | none => none

/-- Model of count(): find(key) != end() ? 1 : 0. -/
def count (s : skip_list α) (key : α) : Nat :=
  if (find_impl s key).isSome then 1 else 0

/-- Model of equal_range(): the pair (lower_bound, upper_bound). -/
def equal_range (s : skip_list α) (key : α) : Option Nat × Option Nat :=
  (lower_bound_impl s key, upper_bound_impl s key)

/-- The descent of insert_impl, which also records update[i] = current after
finishing level i. -/
def descendUpd (s : skip_list α) (key : α) : Nat → Nat → List Nat → Nat × List Nat
  | 0, cur, upd =>
      let c := walkAux s (ltKey key) 0 s.nodes.length cur
      (c, upd.set 0 c)
  | i + 1, cur, upd =>
      let c := walkAux s (ltKey key) (i + 1) s.nodes.length cur
      descendUpd s key i c (upd.set (i + 1) c)

/-- Writing nodes[idx]->forward[i] = p (no-op out of range, which reachable
code never hits). -/
def setFwd (nodes : List (Node α)) (idx i : Nat) (p : Option Nat) : List (Node α) :=
  nodes.set idx
    (let n := nodes.getD idx dummyNode
     { n with forward := n.forward.set i p })

/-- The splice loop of insert_impl, k iterations starting at level i: at each
level, new_node->forward[i] = update[i]->forward[i] and then
update[i]->forward[i] = new_node. -/
def spliceAux (newIdx : Nat) (upd : List Nat) : Nat → Nat → List (Node α) → List (Node α)
  | _, 0, nodes => nodes
  | i, k + 1, nodes =>
      let u := upd.getD i 0
      let t := (nodes.getD u dummyNode).forward.getD i none
      spliceAux newIdx upd (i + 1) k (setFwd (setFwd nodes newIdx i t) u i (some newIdx))

/-- The loop that re-points update[i] at the head for the k levels above the
old max_level_ (starting at index lo). -/
def setHeadRange : List Nat → Nat → Nat → List Nat
  | upd, _, 0 => upd
  | upd, lo, k + 1 => setHeadRange (upd.set lo 0) (lo + 1) k

/-- The allocation and splice half of insert_impl, after the duplicate check
has failed: possibly raise max_level_, allocate the node at a fresh arena
index, splice it into levels 0 .. new_level, and bump size_. -/
def insertNew (s : skip_list α) (value : α) (new_level : Nat) (upd : List Nat) :
    skip_list α × Option Nat × Bool :=
  let upd1 :=
    if s.max_level_ < new_level then
      setHeadRange upd (s.max_level_ + 1) (new_level - s.max_level_)
    else upd
  let ml := if s.max_level_ < new_level then new_level else s.max_level_
  let newIdx := s.nodes.length
  let nodes1 := s.nodes ++ [mkNode value new_level]
  let nodes2 := spliceAux newIdx upd1 0 (new_level + 1) nodes1
  (⟨nodes2, s.size_ + 1, ml⟩, some newIdx, true)

/-- Model of insert_impl: run the recording descent, step to forward[0], and
either report the equal element already present (inserted = false, state
unchanged) or splice in a node at the externally supplied level. -/
def insert_impl (s : skip_list α) (value : α) (new_level : Nat) :
    skip_list α × Option Nat × Bool :=
  let r := descendUpd s value s.max_level_ 0 (List.replicate MAX_LEVEL 0)
  match next s r.1 0 with
  | some c =>
      if ¬ value < (getNode s c).value ∧ ¬ (getNode s c).value < value then
        (s, some c, false)
      else insertNew s value new_level r.2
  | none => insertNew s value new_level r.2

/-- Folding insert over a list of key-level pairs, as the constructor taking
an init sequence does (each level being what random_level drew). -/
def insertMany (s : skip_list α) (l : List (α × Nat)) : skip_list α :=
  l.foldl (fun t kv => (insert_impl t kv.1 kv.2).1) s

/-- The value sequence produced by iterating with operator++ from a given
iterator until end, with fuel for the pointer chase. -/
def iterListAux (s : skip_list α) : Nat → Option Nat → Option (List α)
  | _, none => some []
  | 0, some _ => none
  | fuel + 1, some idx =>
      (iterListAux s fuel (iterSucc s (some idx))).map ((getNode s idx).value :: ·)

/-- The iteration sequence from begin() to end(). -/
def iteration (s : skip_list α) : Option (List α) :=
  iterListAux s s.nodes.length (headFwd s 0)

/-- Total version of the iteration sequence, for the comparison operators. -/
def valsD (s : skip_list α) : List α := (iteration s).getD []

/-- Model of operator==: sizes equal and std::equal over the two iteration
sequences. -/
def eqOp (s t : skip_list α) : Bool :=
  if s.size_ ≠ t.size_ then false else decide (valsD s = valsD t)

/-- Model of operator!=. -/
def neOp (s t : skip_list α) : Bool := ! eqOp s t

/-- Model of std::lexicographical_compare over two value sequences. -/
def lexLt : List α → List α → Bool
  | _, [] => false
  | [], _ :: _ => true
  | a :: l, b :: m => if a < b then true else if b < a then false else lexLt l m

/-- Model of operator<. -/
def ltOp (s t : skip_list α) : Bool := lexLt (valsD s) (valsD t)

/-- Model of operator<=: !(rhs < lhs). -/
def leOp (s t : skip_list α) : Bool := ! ltOp t s

/-- Model of operator>: rhs < lhs. -/
def gtOp (s t : skip_list α) : Bool := ltOp t s

/-- Model of operator>=: !(lhs < rhs). -/
def geOp (s t : skip_list α) : Bool := ! ltOp s t

/-- The loop of random_level over the sequence of draw outcomes: b n is
whether the n-th call of dist_(gen_) returned a value below P.  Each
iteration consumes one draw; the level grows while the draw is below P and
the cap MAX_LEVEL - 1 has not been reached.  Fuel bounds the loop; the cap
makes MAX_LEVEL - 1 units sufficient. -/
def rlAux (b : Nat → Bool) : Nat → Nat → Nat
  | 0, level => level
  | fuel + 1, level =>
      if b level ∧ level < MAX_LEVEL - 1 then rlAux b fuel (level + 1) else level

/-- Model of random_level as a function of the draw outcomes. -/
def random_level (b : Nat → Bool) : Nat :=
  rlAux b (MAX_LEVEL - 1) 0

/-- A draw modeled as a uniform value over four equiprobable outcomes: the
comparison dist_(gen_) < P with P = 0.25 holds with probability exactly 1/4,
so outcome 0 of Fin 4 stands for a draw below P. -/
def drawBelowP (d : Fin 4) : Bool := d == 0

/-- random_level driven by n uniform four-way draws (draws beyond the n-th
read as not-below-P). -/
def randomLevelOfDraws (n : Nat) (f : Fin n → Fin 4) : Nat :=
  random_level (fun i => if h : i < n then drawBelowP (f ⟨i, h⟩) else false)

/-- The value held at an arena index. -/
def nodeVal (s : skip_list α) (idx : Nat) : α := (getNode s idx).value

/-- The level of the node at an arena index. -/
def nodeLvl (s : skip_list α) (idx : Nat) : Nat := (getNode s idx).level

/-- IsPath s i p l q: starting from pointer p, following index-i forward
links visits exactly the arena indices l and then continues with pointer q. -/
def IsPath (s : skip_list α) (i : Nat) : Option Nat → List Nat → Option Nat → Prop
  | p, [], q => p = q
  | p, a :: l, q => p = some a ∧ IsPath s i (next s a i) l q

/-- IsChain s i p l: from pointer p the index-i links visit l and end at null. -/
def IsChain (s : skip_list α) (i : Nat) (p : Option Nat) (l : List Nat) : Prop :=
  IsPath s i p l none

/-- Computing the chain of arena indices from a pointer along index-i links,
with fuel; none signals fuel exhaustion (a cycle, never reachable). -/
def chainAux (s : skip_list α) (i : Nat) : Nat → Option Nat → Option (List Nat)
  | _, none => some []
  | 0, some _ => none
  | fuel + 1, some idx => (chainAux s i fuel (next s idx i)).map (idx :: ·)

/-- The chain of arena indices reachable from the head along index-i links. -/
def levelChain? (s : skip_list α) (i : Nat) : Option (List Nat) :=
  chainAux s i s.nodes.length (headFwd s i)

/-- The representation invariant relating a state to the list l0 of arena
indices on its level-0 chain: the head is intact, every level-i chain is the
level-0 chain restricted to nodes of level at least i, values strictly
increase along the chain, all chain nodes are well-formed, and size_ counts
the chain. -/
structure Rep (s : skip_list α) (l0 : List Nat) : Prop where
  hne : s.nodes ≠ []
  hheadLvl : (getNode s 0).level = MAX_LEVEL
  hheadLenLo : MAX_LEVEL ≤ (getNode s 0).forward.length
  hheadLenHi : (getNode s 0).forward.length ≤ MAX_LEVEL + 1
  hml : s.max_level_ ≤ MAX_LEVEL - 1
  hchain : ∀ i, levelChain? s i =
    some (l0.filter (fun idx => decide (i ≤ nodeLvl s idx)))
  hsorted : l0.Pairwise (fun a b => nodeVal s a < nodeVal s b)
  hvalid : ∀ idx ∈ l0, 0 < idx ∧ idx < s.nodes.length ∧
    (getNode s idx).forward.length = nodeLvl s idx + 1 ∧
    nodeLvl s idx ≤ s.max_level_
  hsize : s.size_ = l0.length

/-- States reachable from the default constructor by the mutating public
operations.  The level passed to insert is what random_level produced, hence
at most MAX_LEVEL - 1.  Copy construction re-inserts elements, swap and move
exchange whole states, so they create no states beyond these (the moved-from
carcass with its null head is handled separately). -/
inductive Reachable : skip_list α → Prop
  | base : Reachable (newList α)
  | ins (s : skip_list α) (key : α) (lvl : Nat) : Reachable s →
      lvl ≤ MAX_LEVEL - 1 → Reachable (insert_impl s key lvl).1
  | clr (s : skip_list α) : Reachable s → Reachable (clear s)

/-- A predicate on values that is closed downward under the order. -/
def DownClosed (pb : α → Bool) : Prop :=
  ∀ v w : α, w ≤ v → pb v = true → pb w = true

/-- The level-0 chain restricted to nodes of level at least j; by the
representation invariant this is the level-j chain. -/
def restrict (s : skip_list α) (l0 : List Nat) (j : Nat) : List Nat :=
  l0.filter (fun idx => decide (j ≤ nodeLvl s idx))

/-- The last node on the level-j chain whose value satisfies the walk
predicate (the head, index 0, when there is none): where the level-j walk
of the search descent stops. -/
def pwAt (s : skip_list α) (pb : α → Bool) (l0 : List Nat) (j : Nat) : Nat :=
  ((restrict s l0 j).takeWhile (fun idx => pb (nodeVal s idx))).getLastD 0

/-- The values along a list of arena indices. -/
def valsOf (s : skip_list α) (l : List Nat) : List α := l.map (nodeVal s)

/-! Basic list access lemmas used throughout. -/

theorem getD_set_self {β : Type} (l : List β) (i : Nat) (a d : β) (h : i < l.length) :
    (l.set i a).getD i d = a := by
  simp [List.getD, List.getElem?_set_self', h]

theorem getD_set_ne {β : Type} (l : List β) (i j : Nat) (a d : β) (h : i ≠ j) :
    (l.set i a).getD j d = l.getD j d := by
  simp [List.getD, List.getElem?_set_ne h]

theorem getD_replicate {β : Type} (n i : Nat) (a d : β) :
    (List.replicate n a).getD i d = if i < n then a else d := by
  by_cases h : i < n
  · simp [List.getD, List.getElem?_replicate, h]
  · simp [List.getD, List.getElem?_replicate, h]

theorem head?_dropWhile_eq_find? {β : Type} (p : β → Bool) (l : List β) :
    (l.dropWhile p).head? = l.find? (fun a => ! p a) := by
  induction l with
  | nil => rfl
  | cons a t ih =>
    by_cases h : p a = true
    · simp [List.dropWhile_cons, List.find?, h, ih]
    · simp only [Bool.not_eq_true] at h
      simp [List.dropWhile_cons, List.find?, h]

theorem getLastD_append_cons {β : Type} (P : List β) (a d : β) (t : List β) :
    (P ++ a :: t).getLastD d = t.getLastD a := by
  induction P generalizing d with
  | nil => rw [List.nil_append, List.getLastD_cons]
  | cons x P ih => rw [List.cons_append, List.getLastD_cons, ih]

theorem takeWhile_append_cons {β : Type} {p : β → Bool} {P : List β} {a : β} (t : List β)
    (hP : ∀ x ∈ P, p x = true) (ha : p a = true) :
    (P ++ a :: t).takeWhile p = P ++ a :: t.takeWhile p := by
  induction P with
  | nil => simp [List.takeWhile_cons, ha]
  | cons x P ih =>
    have hx : p x = true := hP x (by simp)
    simp only [List.cons_append, List.takeWhile_cons, hx, if_true]
    rw [ih (fun y hy => hP y (by simp [hy]))]

/-! Path and chain lemmas. -/

theorem isPath_append {s : skip_list α} {i : Nat} {p q r : Option Nat} {l m : List Nat}
    (h1 : IsPath s i p l q) (h2 : IsPath s i q m r) : IsPath s i p (l ++ m) r := by
  induction l generalizing p with
  | nil => simp only [IsPath] at h1; simpa [h1] using h2
  | cons a t ih =>
    obtain ⟨hp, h1t⟩ := h1
    exact ⟨hp, ih h1t⟩

theorem isPath_split {s : skip_list α} {i : Nat} {r : Option Nat} :
    ∀ {l : List Nat} {p : Option Nat} {m : List Nat}, IsPath s i p (l ++ m) r →
      ∃ q, IsPath s i p l q ∧ IsPath s i q m r := by
  intro l
  induction l with
  | nil => intro p m h; exact ⟨p, rfl, h⟩
  | cons a t ih =>
    intro p m h
    obtain ⟨hp, ht⟩ := h
    obtain ⟨q, hq1, hq2⟩ := ih ht
    exact ⟨q, ⟨hp, hq1⟩, hq2⟩

theorem isPath_congr {s s2 : skip_list α} {i : Nat} {p q : Option Nat} {l : List Nat}
    (hnx : ∀ a ∈ l, next s2 a i = next s a i) (h : IsPath s i p l q) : IsPath s2 i p l q := by
  induction l generalizing p with
  | nil => exact h
  | cons a t ih =>
    obtain ⟨hp, ht⟩ := h
    refine ⟨hp, ?_⟩
    rw [hnx a (by simp)]
    exact ih (fun b hb => hnx b (by simp [hb])) ht

theorem chainAux_isChain {s : skip_list α} {i : Nat} :
    ∀ {fuel : Nat} {p : Option Nat} {l : List Nat},
      chainAux s i fuel p = some l → IsChain s i p l := by
  intro fuel
  induction fuel with
  | zero =>
    intro p l h
    cases p with
    | none =>
      simp only [chainAux, Option.some.injEq] at h
      subst h
      exact rfl
    | some idx => simp [chainAux] at h
  | succ f ih =>
    intro p l h
    cases p with
    | none =>
      simp only [chainAux, Option.some.injEq] at h
      subst h
      exact rfl
    | some idx =>
      simp only [chainAux, Option.map_eq_some'] at h
      obtain ⟨t, ht, rfl⟩ := h
      exact ⟨rfl, ih ht⟩

theorem isChain_chainAux {s : skip_list α} {i : Nat} :
    ∀ {l : List Nat} {p : Option Nat} {fuel : Nat},
      IsChain s i p l → l.length ≤ fuel → chainAux s i fuel p = some l := by
  intro l
  induction l with
  | nil =>
    intro p fuel h _
    have hp : p = none := h
    subst hp
    cases fuel <;> rfl
  | cons a t ih =>
    intro p fuel h hlen
    obtain ⟨hp, ht⟩ := h
    cases fuel with
    | zero => simp at hlen
    | succ f =>
      subst hp
      simp only [chainAux, ih ht (by simpa using hlen), Option.map_some']

/-- A duplicate-free list of arena indices bounded by the arena size is no
longer than the arena. -/
theorem length_le_of_nodup_bounded {l : List Nat} {n : Nat}
    (hnd : l.Nodup) (hb : ∀ idx ∈ l, idx < n) : l.length ≤ n := by
  have h1 : l.toFinset.card = l.length := List.toFinset_card_of_nodup hnd
  have h2 : l.toFinset ⊆ Finset.range n := by
    intro x hx
    simp only [List.mem_toFinset] at hx
    simpa using hb x hx
  have := Finset.card_le_card h2
  simpa [h1] using this

/-! Sorted-list consequences: on a value-sorted list, a downward-closed
predicate splits takeWhile and dropWhile into filters. -/

theorem downClosed_ltKey (key : α) : DownClosed (ltKey key) := by
  intro v w hle hv
  simp only [ltKey, decide_eq_true_eq] at hv ⊢
  exact lt_of_le_of_lt hle hv

theorem downClosed_leKey (key : α) : DownClosed (leKey key) := by
  intro v w hle hv
  simp only [leKey, decide_eq_true_eq, not_lt] at hv ⊢
  exact le_trans hle hv

theorem takeWhile_eq_filter_of_sorted {β : Type} (f : β → α) {pb : α → Bool}
    (hdc : DownClosed pb) :
    ∀ {l : List β}, l.Pairwise (fun a b => f a < f b) →
      l.takeWhile (fun x => pb (f x)) = l.filter (fun x => pb (f x)) := by
  intro l
  induction l with
  | nil => simp
  | cons x t ih =>
    intro hp
    rw [List.pairwise_cons] at hp
    by_cases hx : pb (f x) = true
    · simp [List.takeWhile_cons, List.filter_cons, hx, ih hp.2]
    · simp only [Bool.not_eq_true] at hx
      simp only [List.takeWhile_cons, List.filter_cons, hx, Bool.false_eq_true, if_false,
        cond_false]
      symm
      rw [List.filter_eq_nil_iff]
      intro y hy
      simp only [Bool.not_eq_true]
      by_contra hcon
      simp only [Bool.not_eq_false] at hcon
      have := hdc (f y) (f x) (le_of_lt (hp.1 y hy)) hcon
      simp [this] at hx

theorem dropWhile_eq_filter_of_sorted {β : Type} (f : β → α) {pb : α → Bool}
    (hdc : DownClosed pb) :
    ∀ {l : List β}, l.Pairwise (fun a b => f a < f b) →
      l.dropWhile (fun x => pb (f x)) = l.filter (fun x => ! pb (f x)) := by
  intro l
  induction l with
  | nil => simp
  | cons x t ih =>
    intro hp
    rw [List.pairwise_cons] at hp
    by_cases hx : pb (f x) = true
    · simp [List.dropWhile_cons, List.filter_cons, hx, ih hp.2]
    · simp only [Bool.not_eq_true] at hx
      simp only [List.dropWhile_cons, hx, Bool.false_eq_true, if_false, List.filter_cons]
      simp only [hx, Bool.not_false, cond_true]
      congr 1
      symm
      rw [List.filter_eq_self]
      intro y hy
      simp only [Bool.not_eq_true']
      by_contra hcon
      simp only [Bool.not_eq_false] at hcon
      have := hdc (f y) (f x) (le_of_lt (hp.1 y hy)) hcon
      simp [this] at hx

/-! The single-level walk lemma: walking from cur over the chain hanging off
cur stops at the last consecutive node satisfying the predicate. -/

theorem walkAux_eq {s : skip_list α} {pb : α → Bool} {i : Nat} :
    ∀ {l : List Nat} {cur fuel : Nat},
      IsChain s i (next s cur i) l → l.length ≤ fuel →
      walkAux s pb i fuel cur = (l.takeWhile (fun idx => pb (nodeVal s idx))).getLastD cur := by
  intro l
  induction l with
  | nil =>
    intro cur fuel h _
    have h0 : next s cur i = none := h
    cases fuel with
    | zero => simp [walkAux]
    | succ f => simp [walkAux, h0]
  | cons a t ih =>
    intro cur fuel h hlen
    obtain ⟨hp, ht⟩ := h
    cases fuel with
    | zero => simp at hlen
    | succ f =>
      simp only [walkAux, hp]
      by_cases hpa : pb (getNode s a).value = true
      · have : nodeVal s a = (getNode s a).value := rfl
        simp only [hpa, if_true, List.takeWhile_cons, this, List.getLastD_cons]
        exact ih ht (by simpa using hlen)
      · simp only [Bool.not_eq_true] at hpa
        have : nodeVal s a = (getNode s a).value := rfl
        simp [hpa, List.takeWhile_cons, this]

/-! Consequences of the representation invariant, and the correctness of
the top-down search descent. -/

theorem rep_nodup {s : skip_list α} {l0 : List Nat} (hr : Rep s l0) : l0.Nodup := by
  refine hr.hsorted.imp ?_
  intro a b h he
  rw [he] at h
  exact absurd h (lt_irrefl _)

theorem restrict_zero {s : skip_list α} (l0 : List Nat) : restrict s l0 0 = l0 := by
  simp [restrict]

theorem restrict_sublist {s : skip_list α} (l0 : List Nat) (j : Nat) :
    (restrict s l0 j).Sublist l0 :=
  List.filter_sublist l0

theorem restrict_succ {s : skip_list α} (l0 : List Nat) (j : Nat) :
    restrict s l0 (j + 1) =
      (restrict s l0 j).filter (fun idx => decide (j + 1 ≤ nodeLvl s idx)) := by
  simp only [restrict, List.filter_filter]
  apply List.filter_congr
  intro x _
  by_cases h : j + 1 ≤ nodeLvl s x
  · simp [h, Nat.le_of_succ_le h]
  · simp [h]

theorem rep_sorted_restrict {s : skip_list α} {l0 : List Nat} (hr : Rep s l0) (j : Nat) :
    (restrict s l0 j).Pairwise (fun a b => nodeVal s a < nodeVal s b) :=
  List.Pairwise.sublist (restrict_sublist l0 j) hr.hsorted

theorem rep_restrict_len {s : skip_list α} {l0 : List Nat} (hr : Rep s l0) (j : Nat) :
    (restrict s l0 j).length ≤ s.nodes.length := by
  refine length_le_of_nodup_bounded ((restrict_sublist l0 j).nodup (rep_nodup hr)) ?_
  intro idx hidx
  exact (hr.hvalid idx ((restrict_sublist l0 j).subset hidx)).2.1

theorem rep_isChain {s : skip_list α} {l0 : List Nat} (hr : Rep s l0) (j : Nat) :
    IsChain s j (next s 0 j) (restrict s l0 j) :=
  chainAux_isChain (hr.hchain j)

theorem rep_l0_chain {s : skip_list α} {l0 : List Nat} (hr : Rep s l0) :
    IsChain s 0 (next s 0 0) l0 := by
  have := rep_isChain hr 0
  rwa [restrict_zero] at this

theorem getLastD_cons_ne {β : Type} (a : β) (t : List β) (d : β) :
    (a :: t).getLastD d = (a :: t).getLast (by simp) := by
  rw [List.getLastD_eq_getLast?, List.getLast?_eq_getLast (a :: t) (by simp)]
  rfl

theorem walk_step {s : skip_list α} {l0 : List Nat} (hr : Rep s l0) {pb : α → Bool}
    (hdc : DownClosed pb) (j : Nat) :
    walkAux s pb j s.nodes.length (pwAt s pb l0 (j + 1)) = pwAt s pb l0 j := by
  have hCj : IsChain s j (next s 0 j) (restrict s l0 j) := rep_isChain hr j
  have hlenCj : (restrict s l0 j).length ≤ s.nodes.length := rep_restrict_len hr j
  rcases htw : (restrict s l0 (j + 1)).takeWhile (fun idx => pb (nodeVal s idx)) with
    _ | ⟨a, t⟩
  · have hcur : pwAt s pb l0 (j + 1) = 0 := by simp [pwAt, htw]
    rw [hcur, walkAux_eq hCj hlenCj]
    rfl
  · set cur := (a :: t).getLast (by simp) with hcurdef
    have hcur : pwAt s pb l0 (j + 1) = cur := by
      rw [pwAt, htw, getLastD_cons_ne]
    have hcur_tw : cur ∈ (restrict s l0 (j + 1)).takeWhile (fun idx => pb (nodeVal s idx)) := by
      rw [htw]; exact List.getLast_mem _
    have hpbcur : pb (nodeVal s cur) = true := by
      have := List.mem_takeWhile_imp hcur_tw
      exact this
    have hcur_mem : cur ∈ restrict s l0 j := by
      have h1 : cur ∈ restrict s l0 (j + 1) := (List.takeWhile_sublist _).subset hcur_tw
      rw [restrict_succ] at h1
      exact (List.filter_sublist _).subset h1
    obtain ⟨P, S, hsplit⟩ := List.append_of_mem hcur_mem
    rw [hsplit] at hCj
    obtain ⟨q, hqP, hqS⟩ := isPath_split hCj
    obtain ⟨hq, hS⟩ := hqS
    have hSlen : S.length ≤ s.nodes.length := by
      refine le_trans (List.Sublist.length_le ?_) hlenCj
      rw [hsplit]
      exact ((List.sublist_cons_self cur S).trans (List.sublist_append_right P _))
    have hPall : ∀ x ∈ P, pb (nodeVal s x) = true := by
      intro x hx
      have hsj := rep_sorted_restrict hr j
      rw [hsplit, List.pairwise_append] at hsj
      have hlt : nodeVal s x < nodeVal s cur := hsj.2.2 x hx cur (by simp)
      exact hdc _ _ (le_of_lt hlt) hpbcur
    rw [hcur, walkAux_eq hS hSlen, pwAt, hsplit,
      takeWhile_append_cons _ hPall hpbcur, getLastD_append_cons]

theorem pwAt_top {s : skip_list α} {l0 : List Nat} (hr : Rep s l0) (pb : α → Bool) :
    pwAt s pb l0 (s.max_level_ + 1) = 0 := by
  have hempty : restrict s l0 (s.max_level_ + 1) = [] := by
    rw [restrict, List.filter_eq_nil_iff]
    intro idx hidx
    have := (hr.hvalid idx hidx).2.2.2
    simp only [decide_eq_true_eq]
    omega
  simp [pwAt, hempty]

theorem descendAux_pw {s : skip_list α} {l0 : List Nat} (hr : Rep s l0) {pb : α → Bool}
    (hdc : DownClosed pb) :
    ∀ (i cur : Nat), cur = pwAt s pb l0 (i + 1) →
      descendAux s pb i cur = pwAt s pb l0 0 := by
  intro i
  induction i with
  | zero =>
    intro cur hc
    rw [descendAux, hc, walk_step hr hdc 0]
  | succ i ih =>
    intro cur hc
    rw [descendAux, hc, walk_step hr hdc (i + 1)]
    exact ih _ rfl

theorem descend_full {s : skip_list α} {l0 : List Nat} (hr : Rep s l0) {pb : α → Bool}
    (hdc : DownClosed pb) :
    descendAux s pb s.max_level_ 0 = pwAt s pb l0 0 := by
  refine descendAux_pw hr hdc s.max_level_ 0 ?_
  rw [pwAt_top hr]

theorem next_pw0 {s : skip_list α} {l0 : List Nat} (hr : Rep s l0) {pb : α → Bool}
    (hdc : DownClosed pb) :
    next s (pwAt s pb l0 0) 0 =
      (l0.dropWhile (fun idx => pb (nodeVal s idx))).head? := by
  have hl0 : IsChain s 0 (next s 0 0) l0 := rep_l0_chain hr
  rcases htw : l0.takeWhile (fun idx => pb (nodeVal s idx)) with _ | ⟨a, t⟩
  · have hcur : pwAt s pb l0 0 = 0 := by simp [pwAt, restrict_zero, htw]
    have hdrop : l0.dropWhile (fun idx => pb (nodeVal s idx)) = l0 := by
      have := List.takeWhile_append_dropWhile (fun idx => pb (nodeVal s idx)) l0
      rw [htw] at this
      simpa using this
    rw [hcur, hdrop]
    cases hl0c : l0 with
    | nil => rw [hl0c] at hl0; exact hl0
    | cons b m => rw [hl0c] at hl0; exact hl0.1
  · have hcur : pwAt s pb l0 0 = (a :: t).getLast (by simp) := by
      rw [pwAt, restrict_zero, htw, getLastD_cons_ne]
    have hsplitfull : l0 = (a :: t) ++ l0.dropWhile (fun idx => pb (nodeVal s idx)) := by
      conv_lhs => rw [← List.takeWhile_append_dropWhile (fun idx => pb (nodeVal s idx)) l0]
      rw [htw]
    have hsplit2 : l0 = ((a :: t).dropLast ++ [(a :: t).getLast (by simp)]) ++
        l0.dropWhile (fun idx => pb (nodeVal s idx)) := by
      rw [List.dropLast_append_getLast]
      exact hsplitfull
    rw [hsplit2] at hl0
    obtain ⟨q, hq1, hq2⟩ := isPath_split hl0
    obtain ⟨q1, hq3, hq4⟩ := isPath_split hq1
    obtain ⟨hq5, hq6⟩ := hq4
    have h1 : next s ((a :: t).getLast (by simp)) 0 = q := hq6
    rw [hcur]
    cases hdw : l0.dropWhile (fun idx => pb (nodeVal s idx)) with
    | nil =>
      rw [hdw] at hq2
      have h2 : q = none := hq2
      rw [h1, h2]
      rfl
    | cons b m =>
      rw [hdw] at hq2
      rw [h1, hq2.1]
      rfl

/-! Correctness of the query operations over the level-0 chain. -/

theorem lower_bound_drop {s : skip_list α} {l0 : List Nat} (hr : Rep s l0) (key : α) :
    lower_bound_impl s key =
      (l0.dropWhile (fun idx => ltKey key (nodeVal s idx))).head? := by
  rw [lower_bound_impl, descend_full hr (downClosed_ltKey key),
    next_pw0 hr (downClosed_ltKey key)]

theorem upper_bound_drop {s : skip_list α} {l0 : List Nat} (hr : Rep s l0) (key : α) :
    upper_bound_impl s key =
      (l0.dropWhile (fun idx => leKey key (nodeVal s idx))).head? := by
  rw [upper_bound_impl, descend_full hr (downClosed_leKey key),
    next_pw0 hr (downClosed_leKey key)]

theorem find_step {s : skip_list α} {l0 : List Nat} (hr : Rep s l0) (key : α) :
    find_impl s key =
      match (l0.dropWhile (fun idx => ltKey key (nodeVal s idx))).head? with
      | some c =>
          if ¬ key < (getNode s c).value ∧ ¬ (getNode s c).value < key then some c
          else none
      | none => none := by
  rw [find_impl, descend_full hr (downClosed_ltKey key),
    next_pw0 hr (downClosed_ltKey key)]

/-- If an element with value key sits on the chain, the first element not
below key is that element. -/
theorem head_drop_of_mem {s : skip_list α} {l0 : List Nat} (hr : Rep s l0) {key : α}
    {idx : Nat} (hmem : idx ∈ l0) (hval : nodeVal s idx = key) :
    (l0.dropWhile (fun idx => ltKey key (nodeVal s idx))).head? = some idx := by
  have hdw : l0.dropWhile (fun idx => ltKey key (nodeVal s idx)) =
      l0.filter (fun idx => ! ltKey key (nodeVal s idx)) :=
    dropWhile_eq_filter_of_sorted (nodeVal s) (downClosed_ltKey key) hr.hsorted
  rw [hdw]
  have hmemf : idx ∈ l0.filter (fun idx => ! ltKey key (nodeVal s idx)) := by
    rw [List.mem_filter]
    exact ⟨hmem, by simp [ltKey, hval]⟩
  have hsf : (l0.filter (fun idx => ! ltKey key (nodeVal s idx))).Pairwise
      (fun a b => nodeVal s a < nodeVal s b) :=
    List.Pairwise.sublist (List.filter_sublist l0) hr.hsorted
  cases hF : l0.filter (fun idx => ! ltKey key (nodeVal s idx)) with
  | nil => rw [hF] at hmemf; simp at hmemf
  | cons h rest =>
    rw [hF] at hmemf hsf
    rcases List.mem_cons.mp hmemf with heq | hrest
    · rw [heq]; rfl
    · exfalso
      have hlt : nodeVal s h < nodeVal s idx := (List.pairwise_cons.mp hsf).1 idx hrest
      have hh : h ∈ l0.filter (fun idx => ! ltKey key (nodeVal s idx)) := by
        rw [hF]; simp
      have := (List.mem_filter.mp hh).2
      simp only [ltKey, Bool.not_eq_eq_eq_not, Bool.not_true, decide_eq_false_iff_not,
        not_lt] at this
      rw [hval] at hlt
      exact absurd hlt (not_lt.mpr this)

/-- If no element has value key, the first element not below key (if any)
is strictly above key. -/
theorem head_drop_of_not_mem {s : skip_list α} {l0 : List Nat} (hr : Rep s l0) {key : α}
    (hnm : key ∉ valsOf s l0) {c : Nat}
    (hc : (l0.dropWhile (fun idx => ltKey key (nodeVal s idx))).head? = some c) :
    c ∈ l0 ∧ key < nodeVal s c := by
  have hsub : (l0.dropWhile (fun idx => ltKey key (nodeVal s idx))).Sublist l0 :=
    List.dropWhile_sublist _
  have hcd : c ∈ l0.dropWhile (fun idx => ltKey key (nodeVal s idx)) := by
    cases hD : l0.dropWhile (fun idx => ltKey key (nodeVal s idx)) with
    | nil => rw [hD] at hc; simp at hc
    | cons b m =>
      rw [hD] at hc
      simp only [List.head?_cons, Option.some.injEq] at hc
      rw [← hc]
      simp
  have hcl : c ∈ l0 := hsub.subset hcd
  have hnlt : ¬ (ltKey key (nodeVal s c) = true) := by
    have := List.head?_dropWhile_not (fun idx => ltKey key (nodeVal s idx)) l0
    rw [hc] at this
    simp [this]
  simp only [ltKey, decide_eq_true_eq, not_lt] at hnlt
  have hne : nodeVal s c ≠ key := by
    intro he
    exact hnm (by exact List.mem_map.mpr ⟨c, hcl, he⟩)
  exact ⟨hcl, lt_of_le_of_ne hnlt (fun he => hne he.symm)⟩

theorem find_of_mem {s : skip_list α} {l0 : List Nat} (hr : Rep s l0) {key : α}
    {idx : Nat} (hmem : idx ∈ l0) (hval : nodeVal s idx = key) :
    find_impl s key = some idx := by
  rw [find_step hr, head_drop_of_mem hr hmem hval]
  have : (getNode s idx).value = key := hval
  simp [this]

theorem find_of_not_mem {s : skip_list α} {l0 : List Nat} (hr : Rep s l0) {key : α}
    (hnm : key ∉ valsOf s l0) : find_impl s key = none := by
  rw [find_step hr]
  cases hc : (l0.dropWhile (fun idx => ltKey key (nodeVal s idx))).head? with
  | none => rfl
  | some c =>
    have := (head_drop_of_not_mem hr hnm hc).2
    have hlt : key < (getNode s c).value := this
    simp [hlt]

/-- At most one chain element compares equal to any key. -/
theorem filter_eq_key_le_one {s : skip_list α} {l0 : List Nat} (hr : Rep s l0) (key : α) :
    (l0.filter (fun idx => decide (nodeVal s idx = key))).length ≤ 1 := by
  have hsf : (l0.filter (fun idx => decide (nodeVal s idx = key))).Pairwise
      (fun a b => nodeVal s a < nodeVal s b) :=
    List.Pairwise.sublist (List.filter_sublist l0) hr.hsorted
  cases hF : l0.filter (fun idx => decide (nodeVal s idx = key)) with
  | nil => simp
  | cons a rest =>
    cases hR : rest with
    | nil => simp
    | cons b m =>
      exfalso
      rw [hF, hR] at hsf
      have hab : nodeVal s a < nodeVal s b := (List.pairwise_cons.mp hsf).1 b (by simp)
      have ha : a ∈ l0.filter (fun idx => decide (nodeVal s idx = key)) := by rw [hF]; simp
      have hb : b ∈ l0.filter (fun idx => decide (nodeVal s idx = key)) := by
        rw [hF, hR]; simp
      have ha2 := (List.mem_filter.mp ha).2
      have hb2 := (List.mem_filter.mp hb).2
      simp only [decide_eq_true_eq] at ha2 hb2
      rw [ha2, hb2] at hab
      exact absurd hab (lt_irrefl _)

/-! Properties of pwAt (the per-level stop position of the descent). -/

theorem restrict_high {s : skip_list α} {l0 : List Nat} (hr : Rep s l0) {j : Nat}
    (hj : s.max_level_ < j) : restrict s l0 j = [] := by
  rw [restrict, List.filter_eq_nil_iff]
  intro idx hidx
  have := (hr.hvalid idx hidx).2.2.2
  simp only [decide_eq_true_eq]
  omega

theorem pwAt_high {s : skip_list α} {l0 : List Nat} (hr : Rep s l0) (pb : α → Bool) {j : Nat}
    (hj : s.max_level_ < j) : pwAt s pb l0 j = 0 := by
  simp [pwAt, restrict_high hr hj]

theorem pwAt_mem_or_zero (s : skip_list α) (pb : α → Bool) (l0 : List Nat) (j : Nat) :
    pwAt s pb l0 j = 0 ∨ pwAt s pb l0 j ∈ restrict s l0 j := by
  rcases htw : (restrict s l0 j).takeWhile (fun idx => pb (nodeVal s idx)) with _ | ⟨a, t⟩
  · left; simp [pwAt, htw]
  · right
    have : pwAt s pb l0 j = (a :: t).getLast (by simp) := by
      rw [pwAt, htw, getLastD_cons_ne]
    rw [this]
    have hmem : (a :: t).getLast (by simp) ∈
        (restrict s l0 j).takeWhile (fun idx => pb (nodeVal s idx)) := by
      rw [htw]
      exact List.getLast_mem _
    exact (List.takeWhile_sublist _).subset hmem

theorem pwAt_lt {s : skip_list α} {l0 : List Nat} (hr : Rep s l0) (pb : α → Bool) (j : Nat) :
    pwAt s pb l0 j < s.nodes.length := by
  rcases pwAt_mem_or_zero s pb l0 j with h | h
  · rw [h]
    exact List.length_pos.mpr hr.hne
  · exact (hr.hvalid _ ((restrict_sublist l0 j).subset h)).2.1

theorem pwAt_fwd_len {s : skip_list α} {l0 : List Nat} (hr : Rep s l0) (pb : α → Bool)
    {j : Nat} (hj : j ≤ MAX_LEVEL - 1) :
    j < (getNode s (pwAt s pb l0 j)).forward.length := by
  rcases pwAt_mem_or_zero s pb l0 j with h | h
  · rw [h]
    have := hr.hheadLenLo
    simp only [MAX_LEVEL] at this hj ⊢
    omega
  · have hmem : pwAt s pb l0 j ∈ l0 := (restrict_sublist l0 j).subset h
    have hlen := (hr.hvalid _ hmem).2.2.1
    have hlvl : j ≤ nodeLvl s (pwAt s pb l0 j) := by
      have := (List.mem_filter.mp h).2
      simpa using this
    omega

/-! The update array recorded by the insert descent. -/

theorem descendUpd_fst (s : skip_list α) (key : α) :
    ∀ (i cur : Nat) (upd : List Nat),
      (descendUpd s key i cur upd).1 = descendAux s (ltKey key) i cur := by
  intro i
  induction i with
  | zero => intro cur upd; rfl
  | succ i ih => intro cur upd; rw [descendUpd, descendAux]; exact ih _ _

theorem descendUpd_snd_length (s : skip_list α) (key : α) :
    ∀ (i cur : Nat) (upd : List Nat),
      ((descendUpd s key i cur upd).2).length = upd.length := by
  intro i
  induction i with
  | zero => intro cur upd; simp [descendUpd]
  | succ i ih => intro cur upd; rw [descendUpd]; rw [ih]; simp

theorem descendUpd_snd_getD {s : skip_list α} {l0 : List Nat} (hr : Rep s l0) (key : α) :
    ∀ (i cur : Nat) (upd : List Nat), cur = pwAt s (ltKey key) l0 (i + 1) →
      i < upd.length → ∀ j,
      ((descendUpd s key i cur upd).2).getD j 0 =
        if j ≤ i then pwAt s (ltKey key) l0 j else upd.getD j 0 := by
  intro i
  induction i with
  | zero =>
    intro cur upd hc hi j
    have hw : walkAux s (ltKey key) 0 s.nodes.length cur = pwAt s (ltKey key) l0 0 := by
      rw [hc]; exact walk_step hr (downClosed_ltKey key) 0
    simp only [descendUpd, hw]
    by_cases hj : j = 0
    · subst hj
      rw [getD_set_self _ _ _ _ hi]
      simp
    · rw [getD_set_ne _ _ _ _ _ (fun he => hj he.symm)]
      simp [hj]
  | succ i ih =>
    intro cur upd hc hi j
    have hw : walkAux s (ltKey key) (i + 1) s.nodes.length cur =
        pwAt s (ltKey key) l0 (i + 1) := by
      rw [hc]; exact walk_step hr (downClosed_ltKey key) (i + 1)
    rw [descendUpd]
    simp only [hw]
    have hi2 : i < (upd.set (i + 1) (pwAt s (ltKey key) l0 (i + 1))).length := by
      simp; omega
    rw [ih _ _ rfl hi2 j]
    by_cases hj : j ≤ i
    · simp [hj, Nat.le_succ_of_le hj]
    · by_cases hj2 : j = i + 1
      · subst hj2
        rw [getD_set_self _ _ _ _ (by simpa using hi)]
        simp [hj]
      · rw [getD_set_ne _ _ _ _ _ (fun he => hj2 he.symm)]
        have : ¬ j ≤ i + 1 := by omega
        simp [hj, this]

theorem insert_upd_getD {s : skip_list α} {l0 : List Nat} (hr : Rep s l0) (key : α) (j : Nat) :
    ((descendUpd s key s.max_level_ 0 (List.replicate MAX_LEVEL 0)).2).getD j 0 =
      pwAt s (ltKey key) l0 j := by
  have hml : s.max_level_ < MAX_LEVEL := by
    have := hr.hml
    simp only [MAX_LEVEL] at this ⊢
    omega
  rw [descendUpd_snd_getD hr key s.max_level_ 0 _ (pwAt_top hr _).symm
    (by simpa using hml) j]
  by_cases hj : j ≤ s.max_level_
  · simp [hj]
  · rw [if_neg hj, getD_replicate]
    rw [pwAt_high hr _ (by omega)]
    simp

/-! The head-extension loop and the splice loop of insert_impl. -/

theorem setHeadRange_length : ∀ (k lo : Nat) (upd : List Nat),
    (setHeadRange upd lo k).length = upd.length := by
  intro k
  induction k with
  | zero => intro lo upd; rfl
  | succ k ih => intro lo upd; rw [setHeadRange, ih]; simp

theorem setHeadRange_getD : ∀ (k lo : Nat) (upd : List Nat) (j : Nat),
    (setHeadRange upd lo k).getD j 0 =
      if lo ≤ j ∧ j < lo + k then 0 else upd.getD j 0 := by
  intro k
  induction k with
  | zero =>
    intro lo upd j
    have h0 : ¬ (lo ≤ j ∧ j < lo + 0) := by omega
    rw [if_neg h0]
    rfl
  | succ k ih =>
    intro lo upd j
    rw [setHeadRange, ih]
    by_cases h1 : lo + 1 ≤ j ∧ j < lo + 1 + k
    · rw [if_pos h1, if_pos (by omega)]
    · rw [if_neg h1]
      by_cases h2 : j = lo
      · subst h2
        rw [if_pos (by omega)]
        by_cases h3 : j < upd.length
        · rw [getD_set_self _ _ _ _ h3]
        · rw [List.set_eq_of_length_le (by omega), List.getD_eq_default _ _ (by omega)]
      · rw [getD_set_ne _ _ _ _ _ (fun he => h2 he.symm)]
        have : ¬ (lo ≤ j ∧ j < lo + (k + 1)) := by omega
        rw [if_neg this]

theorem setFwd_length (nodes : List (Node α)) (idx i : Nat) (p : Option Nat) :
    (setFwd nodes idx i p).length = nodes.length := by
  simp [setFwd]

theorem getD_setFwd_ne {nodes : List (Node α)} {idx m : Nat} (i : Nat) (p : Option Nat)
    (h : m ≠ idx) : (setFwd nodes idx i p).getD m dummyNode = nodes.getD m dummyNode := by
  rw [setFwd]
  exact getD_set_ne _ _ _ _ _ (fun he => h he.symm)

theorem getD_setFwd_self {nodes : List (Node α)} {idx : Nat} (i : Nat) (p : Option Nat)
    (h : idx < nodes.length) :
    (setFwd nodes idx i p).getD idx dummyNode =
      { nodes.getD idx dummyNode with
        forward := (nodes.getD idx dummyNode).forward.set i p } := by
  rw [setFwd]
  exact getD_set_self _ _ _ _ h

/-- Full characterization of the splice loop: processing levels i .. i+k-1,
it rewires, per processed level j, the new node's slot j to what the level-j
predecessor pointed to, and the predecessor's slot j to the new node; every
other slot, and every value, level and forward length, is untouched. -/
theorem spliceAux_spec (n : Nat) (upd : List Nat) :
    ∀ (k i : Nat) (nodes : List (Node α)),
      n < nodes.length →
      (∀ j, i ≤ j → j < i + k → upd.getD j 0 ≠ n) →
      (∀ j, i ≤ j → j < i + k → upd.getD j 0 < nodes.length) →
      (∀ j, i ≤ j → j < i + k → j < (nodes.getD n dummyNode).forward.length) →
      (∀ j, i ≤ j → j < i + k →
        j < (nodes.getD (upd.getD j 0) dummyNode).forward.length) →
      (spliceAux n upd i k nodes).length = nodes.length ∧
      (∀ m, ((spliceAux n upd i k nodes).getD m dummyNode).value =
              (nodes.getD m dummyNode).value ∧
            ((spliceAux n upd i k nodes).getD m dummyNode).level =
              (nodes.getD m dummyNode).level ∧
            ((spliceAux n upd i k nodes).getD m dummyNode).forward.length =
              (nodes.getD m dummyNode).forward.length) ∧
      (∀ m j, ((spliceAux n upd i k nodes).getD m dummyNode).forward.getD j none =
        if i ≤ j ∧ j < i + k then
          (if m = n then (nodes.getD (upd.getD j 0) dummyNode).forward.getD j none
           else if m = upd.getD j 0 then some n
           else (nodes.getD m dummyNode).forward.getD j none)
        else (nodes.getD m dummyNode).forward.getD j none) := by
  intro k
  induction k with
  | zero =>
    intro i nodes _ _ _ _ _
    refine ⟨rfl, fun m => ⟨rfl, rfl, rfl⟩, ?_⟩
    intro m j
    have hw : ¬ (i ≤ j ∧ j < i + 0) := by omega
    rw [if_neg hw]
    rfl
  | succ k ih =>
    intro i nodes hn hu hub hnf huf
    have hu0 : upd.getD i 0 ≠ n := hu i (le_refl i) (by omega)
    have hu0len : upd.getD i 0 < nodes.length := hub i (le_refl i) (by omega)
    set u0 := upd.getD i 0 with hu0def
    set t := (nodes.getD u0 dummyNode).forward.getD i none with htdef
    set nodes2 := setFwd (setFwd nodes n i t) u0 i (some n) with hn2def
    have hstep : spliceAux n upd i (k + 1) nodes = spliceAux n upd (i + 1) k nodes2 := by
      rw [spliceAux]
    have hlen2 : nodes2.length = nodes.length := by
      rw [hn2def, setFwd_length, setFwd_length]
    have hN : nodes2.getD n dummyNode =
        { nodes.getD n dummyNode with
          forward := (nodes.getD n dummyNode).forward.set i t } := by
      rw [hn2def, getD_setFwd_ne _ _ hu0.symm, getD_setFwd_self _ _ hn]
    have hU : nodes2.getD u0 dummyNode =
        { nodes.getD u0 dummyNode with
          forward := (nodes.getD u0 dummyNode).forward.set i (some n) } := by
      rw [hn2def, getD_setFwd_self _ _ (by rw [setFwd_length]; exact hu0len),
        getD_setFwd_ne _ _ hu0]
    have hO : ∀ m, m ≠ n → m ≠ u0 → nodes2.getD m dummyNode = nodes.getD m dummyNode := by
      intro m h1 h2
      rw [hn2def, getD_setFwd_ne _ _ h2, getD_setFwd_ne _ _ h1]
    have hpres2 : ∀ m, (nodes2.getD m dummyNode).value = (nodes.getD m dummyNode).value ∧
        (nodes2.getD m dummyNode).level = (nodes.getD m dummyNode).level ∧
        (nodes2.getD m dummyNode).forward.length =
          (nodes.getD m dummyNode).forward.length := by
      intro m
      by_cases h1 : m = n
      · subst h1; rw [hN]; exact ⟨rfl, rfl, by simp⟩
      · by_cases h2 : m = u0
        · subst h2; rw [hU]; exact ⟨rfl, rfl, by simp⟩
        · rw [hO m h1 h2]; exact ⟨rfl, rfl, rfl⟩
    obtain ⟨ihlen, ihpres, ihfwd⟩ := ih (i + 1) nodes2
      (by omega)
      (fun j h1 h2 => hu j (by omega) (by omega))
      (fun j h1 h2 => by rw [hlen2]; exact hub j (by omega) (by omega))
      (fun j h1 h2 => by
        rw [(hpres2 n).2.2]; exact hnf j (by omega) (by omega))
      (fun j h1 h2 => by
        rw [(hpres2 (upd.getD j 0)).2.2]; exact huf j (by omega) (by omega))
    rw [hstep]
    refine ⟨by rw [ihlen, hlen2], ?_, ?_⟩
    · intro m
      obtain ⟨v1, v2, v3⟩ := ihpres m
      obtain ⟨w1, w2, w3⟩ := hpres2 m
      exact ⟨v1.trans w1, v2.trans w2, v3.trans w3⟩
    · intro m j
      rw [ihfwd m j]
      by_cases hw : i + 1 ≤ j ∧ j < i + 1 + k
      · rw [if_pos hw, if_pos (by omega : i ≤ j ∧ j < i + (k + 1))]
        have hji : j ≠ i := by omega
        by_cases hm : m = n
        · rw [if_pos hm, if_pos hm]
          by_cases hj0 : upd.getD j 0 = u0
          · rw [hj0, hU]
            simp only
            rw [getD_set_ne _ _ _ _ _ (fun he => hji he.symm)]
          · have hj0n : upd.getD j 0 ≠ n := hu j (by omega) (by omega)
            rw [hO _ hj0n hj0]
        · rw [if_neg hm, if_neg hm]
          by_cases hm2 : m = upd.getD j 0
          · rw [if_pos hm2, if_pos hm2]
          · rw [if_neg hm2, if_neg hm2]
            by_cases hm3 : m = u0
            · subst hm3
              rw [hU]
              simp only
              rw [getD_set_ne _ _ _ _ _ (fun he => hji he.symm)]
            · rw [hO m hm hm3]
      · rw [if_neg hw]
        by_cases hji : j = i
        · have hw2 : i ≤ j ∧ j < i + (k + 1) := by omega
          rw [if_pos hw2, hji, ← hu0def]
          by_cases hm : m = n
          · rw [if_pos hm]
            subst hm
            rw [hN]
            simp only
            rw [getD_set_self _ _ _ _ (hnf i (le_refl i) (by omega))]
          · rw [if_neg hm]
            by_cases hm2 : m = u0
            · rw [if_pos hm2]
              subst hm2
              rw [hU]
              simp only
              rw [getD_set_self _ _ _ _ (by
                have := huf i (le_refl i) (by omega)
                rw [← hu0def] at this
                exact this)]
            · rw [if_neg hm2]
              rw [hO m hm hm2]
        · have hout : ¬ (i ≤ j ∧ j < i + (k + 1)) := by omega
          rw [if_neg hout]
          by_cases hm : m = n
          · subst hm
            rw [hN]
            simp only
            rw [getD_set_ne _ _ _ _ _ (fun he => hji he.symm)]
          · by_cases hm2 : m = u0
            · subst hm2
              rw [hU]
              simp only
              rw [getD_set_ne _ _ _ _ _ (fun he => hji he.symm)]
            · rw [hO m hm hm2]

theorem filter_swap {β : Type} (p q : β → Bool) (l : List β) :
    (l.filter p).filter q = (l.filter q).filter p := by
  rw [List.filter_filter, List.filter_filter]
  apply List.filter_congr
  intro x _
  rw [Bool.and_comm]

/-- The membership bound for elements of the chain, in the arena. -/
theorem rep_mem_lt {s : skip_list α} {l0 : List Nat} (hr : Rep s l0) {a : Nat}
    (ha : a ∈ l0) : 0 < a ∧ a < s.nodes.length :=
  ⟨(hr.hvalid a ha).1, (hr.hvalid a ha).2.1⟩

theorem getLast_not_mem_dropLast {β : Type} (l : List β) (h : l ≠ []) (hnd : l.Nodup) :
    l.getLast h ∉ l.dropLast := by
  intro hmem
  have hsplit := List.dropLast_append_getLast h
  rw [← hsplit] at hnd
  exact List.disjoint_of_nodup_append hnd hmem (by simp)

theorem getLast_cons_eq_getLastD {β : Type} (a : β) (l : List β) :
    (a :: l).getLast (by simp) = l.getLastD a := by
  rw [← getLastD_cons_ne a l a, List.getLastD_cons]

theorem pairwise_mem_imp {β : Type} {R S : β → β → Prop} :
    ∀ {l : List β}, l.Pairwise R → (∀ a ∈ l, ∀ b ∈ l, R a b → S a b) → l.Pairwise S := by
  intro l
  induction l with
  | nil => intro _ _; exact List.Pairwise.nil
  | cons x t ih =>
    intro hp himp
    rw [List.pairwise_cons] at hp ⊢
    refine ⟨fun y hy => himp x (by simp) y (by simp [hy]) (hp.1 y hy), ih hp.2 ?_⟩
    intro a ha b hb hr2
    exact himp a (by simp [ha]) b (by simp [hb]) hr2

/-- Retargeting a path through its last element: if the old state links p
through P ++ S, the last element of P now points at the fresh index n, n
points where the last element of P used to, and every other link along the
path is unchanged, then the new state links p through P ++ n :: S. -/
theorem splice_path {s s2 : skip_list α} {j n : Nat} :
    ∀ (P : List Nat) (hne : P ≠ []) (S : List Nat) (p : Option Nat),
      IsPath s j p (P ++ S) none →
      (∀ a ∈ P.dropLast, next s2 a j = next s a j) →
      (∀ a ∈ S, next s2 a j = next s a j) →
      next s2 (P.getLast hne) j = some n →
      next s2 n j = next s (P.getLast hne) j →
      IsPath s2 j p (P ++ n :: S) none := by
  intro P
  induction P with
  | nil => intro hne; exact absurd rfl hne
  | cons a P ih =>
    intro hne S p hold hPkeep hSkeep hpred hnew
    obtain ⟨hp, hrest⟩ := hold
    cases P with
    | nil =>
      refine ⟨hp, ?_⟩
      have hlast : (([a] : List Nat).getLast hne) = a := rfl
      rw [hlast] at hpred hnew
      refine ⟨hpred, ?_⟩
      rw [hnew]
      exact isPath_congr hSkeep hrest
    | cons b t =>
      have hkeepa : next s2 a j = next s a j := by
        refine hPkeep a ?_
        rw [List.dropLast_cons₂]
        simp
      refine ⟨hp, ?_⟩
      rw [hkeepa]
      have hlast : (a :: b :: t).getLast hne = (b :: t).getLast (by simp) :=
        List.getLast_cons _
      rw [hlast] at hpred hnew
      refine ih (by simp) S _ hrest ?_ hSkeep hpred hnew
      intro x hx
      refine hPkeep x ?_
      rw [List.dropLast_cons₂]
      simp [hx]

/-- After a successful duplicate check, insertNew (with the update array of
the descent) rebuilds a valid state whose chain inserts the fresh index at
the sorted position. -/
theorem insertNew_rep {s : skip_list α} {l0 : List Nat} (hr : Rep s l0) (key : α)
    {nl : Nat} (hnl : nl ≤ MAX_LEVEL - 1) (hnm : key ∉ valsOf s l0) :
    Rep (insertNew s key nl
        (descendUpd s key s.max_level_ 0 (List.replicate MAX_LEVEL 0)).2).1
      (l0.takeWhile (fun idx => ltKey key (nodeVal s idx)) ++ s.nodes.length ::
        l0.dropWhile (fun idx => ltKey key (nodeVal s idx))) ∧
    valsOf (insertNew s key nl
        (descendUpd s key s.max_level_ 0 (List.replicate MAX_LEVEL 0)).2).1
      (l0.takeWhile (fun idx => ltKey key (nodeVal s idx)) ++ s.nodes.length ::
        l0.dropWhile (fun idx => ltKey key (nodeVal s idx))) =
      valsOf s (l0.takeWhile (fun idx => ltKey key (nodeVal s idx))) ++ key ::
        valsOf s (l0.dropWhile (fun idx => ltKey key (nodeVal s idx))) ∧
    (insertNew s key nl
        (descendUpd s key s.max_level_ 0 (List.replicate MAX_LEVEL 0)).2).2 =
      (some s.nodes.length, true) := by
  have hmax : MAX_LEVEL = 32 := rfl
  set upd := (descendUpd s key s.max_level_ 0 (List.replicate MAX_LEVEL 0)).2 with hupddef
  set n := s.nodes.length with hndef
  set ml2 := if s.max_level_ < nl then nl else s.max_level_ with hml2def
  set upd1 := (if s.max_level_ < nl then
      setHeadRange upd (s.max_level_ + 1) (nl - s.max_level_) else upd) with hupd1def
  set nodes1 := s.nodes ++ [mkNode key nl] with hn1def
  set F := spliceAux n upd1 0 (nl + 1) nodes1 with hFdef
  have hresult : insertNew s key nl upd = (⟨F, s.size_ + 1, ml2⟩, some n, true) := rfl
  set P0 := l0.takeWhile (fun idx => ltKey key (nodeVal s idx)) with hP0def
  set S0 := l0.dropWhile (fun idx => ltKey key (nodeVal s idx)) with hS0def
  set s2 : skip_list α := ⟨F, s.size_ + 1, ml2⟩ with hs2def
  have hn0 : 0 < n := List.length_pos.mpr hr.hne
  have hupd1g : ∀ j, upd1.getD j 0 = pwAt s (ltKey key) l0 j := by
    intro j
    rw [hupd1def]
    by_cases hc : s.max_level_ < nl
    · rw [if_pos hc, setHeadRange_getD]
      by_cases hw : s.max_level_ + 1 ≤ j ∧ j < s.max_level_ + 1 + (nl - s.max_level_)
      · rw [if_pos hw, pwAt_high hr _ (by omega)]
      · rw [if_neg hw, hupddef, insert_upd_getD hr key j]
    · rw [if_neg hc, hupddef, insert_upd_getD hr key j]
  have hg1 : ∀ m, m < n → nodes1.getD m dummyNode = s.nodes.getD m dummyNode := by
    intro m hm
    rw [hn1def]
    exact List.getD_append _ _ _ _ hm
  have hgn : nodes1.getD n dummyNode = mkNode key nl := by
    rw [hn1def, List.getD_append_right _ _ _ _ (le_refl _)]
    simp
  have hlen1 : nodes1.length = n + 1 := by rw [hn1def]; simp
  have hmk_len : (mkNode key nl : Node α).forward.length = nl + 1 := by
    simp [mkNode]
  obtain ⟨hFlen, hFpres, hFfwd⟩ := spliceAux_spec n upd1 (nl + 1) 0 nodes1
    (by omega)
    (fun j h1 h2 => by
      rw [hupd1g j]
      exact Nat.ne_of_lt (pwAt_lt hr _ j))
    (fun j h1 h2 => by
      rw [hupd1g j]
      have := pwAt_lt hr (ltKey key) j
      omega)
    (fun j h1 h2 => by rw [hgn, hmk_len]; omega)
    (fun j h1 h2 => by
      rw [hupd1g j, hg1 _ (pwAt_lt hr _ j)]
      exact pwAt_fwd_len hr _ (by omega))
  have hgetNode2 : ∀ m, getNode s2 m = F.getD m dummyNode := fun m => rfl
  have hpres : ∀ m, m < n → nodeVal s2 m = nodeVal s m ∧ nodeLvl s2 m = nodeLvl s m ∧
      (getNode s2 m).forward.length = (getNode s m).forward.length := by
    intro m hm
    obtain ⟨v1, v2, v3⟩ := hFpres m
    refine ⟨?_, ?_, ?_⟩
    · rw [nodeVal, hgetNode2, v1, hg1 m hm]; rfl
    · rw [nodeLvl, hgetNode2, v2, hg1 m hm]; rfl
    · rw [hgetNode2, v3, hg1 m hm]; rfl
  have hnewval : nodeVal s2 n = key := by
    obtain ⟨v1, _, _⟩ := hFpres n
    rw [nodeVal, hgetNode2, v1, hgn]
    rfl
  have hnewlvl : nodeLvl s2 n = nl := by
    obtain ⟨_, v2, _⟩ := hFpres n
    rw [nodeLvl, hgetNode2, v2, hgn]
    rfl
  have hnewlen : (getNode s2 n).forward.length = nl + 1 := by
    obtain ⟨_, _, v3⟩ := hFpres n
    rw [hgetNode2, v3, hgn, hmk_len]
  have hnext2 : ∀ m j, next s2 m j =
      if 0 ≤ j ∧ j < 0 + (nl + 1) then
        (if m = n then (nodes1.getD (upd1.getD j 0) dummyNode).forward.getD j none
         else if m = upd1.getD j 0 then some n
         else (nodes1.getD m dummyNode).forward.getD j none)
      else (nodes1.getD m dummyNode).forward.getD j none := by
    intro m j
    exact hFfwd m j
  have hnext_keep : ∀ m j, m < n → m ≠ pwAt s (ltKey key) l0 j ∨ nl < j →
      next s2 m j = next s m j := by
    intro m j hm hcase
    rw [hnext2 m j]
    by_cases hw : 0 ≤ j ∧ j < 0 + (nl + 1)
    · rw [if_pos hw]
      rcases hcase with hne | hgt
      · rw [if_neg (by omega : ¬ m = n), if_neg (by rw [hupd1g j]; exact hne),
          hg1 m hm]
        rfl
      · omega
    · rw [if_neg hw, hg1 m hm]
      rfl
  have hnext_pred : ∀ j, j ≤ nl →
      next s2 (pwAt s (ltKey key) l0 j) j = some n := by
    intro j hj
    rw [hnext2]
    rw [if_pos (by omega)]
    rw [if_neg (by
      have := pwAt_lt hr (ltKey key) j
      omega)]
    rw [if_pos (hupd1g j).symm]
  have hnext_new : ∀ j, j ≤ nl →
      next s2 n j = next s (pwAt s (ltKey key) l0 j) j := by
    intro j hj
    rw [hnext2]
    rw [if_pos (by omega), if_pos rfl, hupd1g j, hg1 _ (pwAt_lt hr _ j)]
    rfl
  -- the new level-0 index list
  set l0n := P0 ++ n :: S0 with hl0ndef
  have hP0S0 : P0 ++ S0 = l0 := by
    rw [hP0def, hS0def]
    exact List.takeWhile_append_dropWhile _ _
  have hP0sub : P0.Sublist l0 := by rw [hP0def]; exact List.takeWhile_sublist _
  have hS0sub : S0.Sublist l0 := by rw [hS0def]; exact List.dropWhile_sublist _
  have hmemP0 : ∀ a ∈ P0, 0 < a ∧ a < n := fun a ha => rep_mem_lt hr (hP0sub.subset ha)
  have hmemS0 : ∀ a ∈ S0, 0 < a ∧ a < n := fun a ha => rep_mem_lt hr (hS0sub.subset ha)
  have hvalP0 : ∀ a ∈ P0, nodeVal s a < key := by
    intro a ha
    have := List.mem_takeWhile_imp (hP0def ▸ ha)
    simpa [ltKey] using this
  have hvalS0 : ∀ a ∈ S0, key < nodeVal s a := by
    intro a ha
    have hdw : S0 = l0.filter (fun idx => ! ltKey key (nodeVal s idx)) := by
      rw [hS0def]
      exact dropWhile_eq_filter_of_sorted (nodeVal s) (downClosed_ltKey key) hr.hsorted
    rw [hdw] at ha
    have h1 := (List.mem_filter.mp ha).2
    have h2 : a ∈ l0 := (List.mem_filter.mp ha).1
    simp only [ltKey, Bool.not_eq_eq_eq_not, Bool.not_true, decide_eq_false_iff_not,
      not_lt] at h1
    refine lt_of_le_of_ne h1 ?_
    intro he
    exact hnm (List.mem_map.mpr ⟨a, h2, he.symm⟩)
  have hlvlP0 : ∀ a ∈ P0, nodeLvl s2 a = nodeLvl s a :=
    fun a ha => (hpres a (hmemP0 a ha).2).2.1
  have hlvlS0 : ∀ a ∈ S0, nodeLvl s2 a = nodeLvl s a :=
    fun a ha => (hpres a (hmemS0 a ha).2).2.1
  have hl0len : l0.length ≤ n := by
    refine length_le_of_nodup_bounded (rep_nodup hr) ?_
    intro idx hidx
    exact (rep_mem_lt hr hidx).2
  have hs2len : s2.nodes.length = n + 1 := by
    show F.length = n + 1
    rw [hFlen, hlen1]
  have hres1 : (insertNew s key nl upd).1 = s2 := by rw [hresult]
  have hres2 : (insertNew s key nl upd).2 = (some n, true) := by rw [hresult]
  -- the chains of the new state
  have hchain2 : ∀ j, levelChain? s2 j =
      some (l0n.filter (fun idx => decide (j ≤ nodeLvl s2 idx))) := by
    intro j
    have hCj : IsChain s j (next s 0 j) (restrict s l0 j) := rep_isChain hr j
    have hCjsub : (restrict s l0 j).Sublist l0 := restrict_sublist l0 j
    have hCjsorted := rep_sorted_restrict hr j
    have hCjnodup : (restrict s l0 j).Nodup := hCjsub.nodup (rep_nodup hr)
    have hCjlen : (restrict s l0 j).length ≤ l0.length := hCjsub.length_le
    have hCjbound : ∀ a ∈ restrict s l0 j, 0 < a ∧ a < n :=
      fun a ha => rep_mem_lt hr (hCjsub.subset ha)
    have hfilter_eq : ∀ (l : List Nat), (∀ a ∈ l, a < n) →
        l.filter (fun idx => decide (j ≤ nodeLvl s2 idx)) =
        l.filter (fun idx => decide (j ≤ nodeLvl s idx)) := by
      intro l hl
      apply List.filter_congr
      intro x hx
      rw [(hpres x (hl x hx)).2.1]
    by_cases hj : j ≤ nl
    · -- the new node is spliced into this level
      set Pj := (restrict s l0 j).takeWhile (fun idx => ltKey key (nodeVal s idx))
        with hPjdef
      set Sj := (restrict s l0 j).dropWhile (fun idx => ltKey key (nodeVal s idx))
        with hSjdef
      have hsplitj : restrict s l0 j = Pj ++ Sj :=
        (List.takeWhile_append_dropWhile _ _).symm
      have hpwj : pwAt s (ltKey key) l0 j = Pj.getLastD 0 := rfl
      have hpwlast : pwAt s (ltKey key) l0 j = (0 :: Pj).getLast (by simp) := by
        rw [hpwj, getLast_cons_eq_getLastD]
      have hPjsub2 : Pj.Sublist (restrict s l0 j) := by
        rw [hPjdef]
        exact List.takeWhile_sublist _
      have hSjsub2 : Sj.Sublist (restrict s l0 j) := by
        rw [hSjdef]
        exact List.dropWhile_sublist _
      have hdisjPS : Pj.Disjoint Sj := by
        have hnd := hCjnodup
        rw [hsplitj] at hnd
        exact List.disjoint_of_nodup_append hnd
      have hpw_cases : pwAt s (ltKey key) l0 j = 0 ∨ pwAt s (ltKey key) l0 j ∈ Pj := by
        have hgl := List.getLast_mem (show (0 :: Pj) ≠ [] by simp)
        rw [← hpwlast] at hgl
        exact List.mem_cons.mp hgl
      have hSjkeep : ∀ a ∈ Sj, next s2 a j = next s a j := by
        intro a ha
        have ham : a ∈ l0 := hCjsub.subset (hSjsub2.subset ha)
        refine hnext_keep a j (rep_mem_lt hr ham).2 (Or.inl ?_)
        intro he
        rcases hpw_cases with h0 | hmem
        · rw [h0] at he
          have := (rep_mem_lt hr ham).1
          omega
        · rw [← he] at hmem
          exact hdisjPS hmem ha
      have h0notPj : (0 : Nat) ∉ Pj := by
        intro h0
        have := (hCjbound 0 (hPjsub2.subset h0)).1
        omega
      have hnodup0Pj : (0 :: Pj).Nodup := by
        rw [List.nodup_cons]
        exact ⟨h0notPj, hPjsub2.nodup hCjnodup⟩
      have hdropkeep : ∀ a ∈ (0 :: Pj).dropLast, next s2 a j = next s a j := by
        intro a ha
        have hane : a ≠ pwAt s (ltKey key) l0 j := by
          intro he
          rw [he, hpwlast] at ha
          exact getLast_not_mem_dropLast _ _ hnodup0Pj ha
        have ham : a ∈ 0 :: Pj := List.dropLast_subset _ ha
        have haltn : a < n := by
          rcases List.mem_cons.mp ham with h0 | hPm
          · rw [h0]; exact hn0
          · exact (hCjbound a (hPjsub2.subset hPm)).2
        exact hnext_keep a j haltn (Or.inl hane)
      have hold : IsPath s j (some 0) ((0 :: Pj) ++ Sj) none := by
        refine ⟨rfl, ?_⟩
        show IsPath s j (next s 0 j) (Pj ++ Sj) none
        rw [← hsplitj]
        exact hCj
      have hpred2 : next s2 ((0 :: Pj).getLast (by simp)) j = some n := by
        rw [← hpwlast]
        exact hnext_pred j hj
      have hnew2 : next s2 n j = next s ((0 :: Pj).getLast (by simp)) j := by
        rw [← hpwlast]
        exact hnext_new j hj
      have hnewpath : IsPath s2 j (some 0) ((0 :: Pj) ++ n :: Sj) none :=
        splice_path (0 :: Pj) (by simp) Sj (some 0) hold hdropkeep hSjkeep hpred2 hnew2
      have hnewchain : IsChain s2 j (next s2 0 j) (Pj ++ n :: Sj) := hnewpath.2
      have hlen_new : (Pj ++ n :: Sj).length ≤ s2.nodes.length := by
        rw [hs2len]
        have hPS : Pj.length + Sj.length = (restrict s l0 j).length := by
          rw [hsplitj, List.length_append]
        simp only [List.length_append, List.length_cons]
        omega
      have hcomp : levelChain? s2 j = some (Pj ++ n :: Sj) := by
        unfold levelChain?
        exact isChain_chainAux hnewchain hlen_new
      rw [hcomp]
      congr 1
      have htkw0 : P0 = l0.filter (fun idx => ltKey key (nodeVal s idx)) := by
        rw [hP0def]
        exact takeWhile_eq_filter_of_sorted (nodeVal s) (downClosed_ltKey key) hr.hsorted
      have hdpw0 : S0 = l0.filter (fun idx => ! ltKey key (nodeVal s idx)) := by
        rw [hS0def]
        exact dropWhile_eq_filter_of_sorted (nodeVal s) (downClosed_ltKey key) hr.hsorted
      have hPjf : Pj = P0.filter (fun idx => decide (j ≤ nodeLvl s idx)) := by
        rw [hPjdef, takeWhile_eq_filter_of_sorted (nodeVal s) (downClosed_ltKey key)
          hCjsorted, restrict, filter_swap, ← htkw0]
      have hSjf : Sj = S0.filter (fun idx => decide (j ≤ nodeLvl s idx)) := by
        rw [hSjdef, dropWhile_eq_filter_of_sorted (nodeVal s) (downClosed_ltKey key)
          hCjsorted, restrict, filter_swap, ← hdpw0]
      rw [hl0ndef, List.filter_append, List.filter_cons]
      rw [if_pos (by simp only [hnewlvl, decide_eq_true_eq]; exact hj)]
      rw [hfilter_eq P0 (fun a ha => (hmemP0 a ha).2),
        hfilter_eq S0 (fun a ha => (hmemS0 a ha).2), ← hPjf, ← hSjf]
    · -- levels above the new node: the chain is untouched
      have hkeepall : ∀ a ∈ 0 :: restrict s l0 j, next s2 a j = next s a j := by
        intro a ha
        rcases List.mem_cons.mp ha with h0 | hm
        · rw [h0]
          exact hnext_keep 0 j hn0 (Or.inr (by omega))
        · exact hnext_keep a j (hCjbound a hm).2 (Or.inr (by omega))
      have hold : IsPath s j (some 0) (0 :: restrict s l0 j) none := ⟨rfl, hCj⟩
      have hnewpath : IsPath s2 j (some 0) (0 :: restrict s l0 j) none :=
        isPath_congr hkeepall hold
      have hcomp : levelChain? s2 j = some (restrict s l0 j) := by
        unfold levelChain?
        refine isChain_chainAux hnewpath.2 ?_
        rw [hs2len]
        omega
      rw [hcomp]
      congr 1
      rw [hl0ndef, List.filter_append, List.filter_cons]
      rw [if_neg (by simp only [hnewlvl, decide_eq_true_eq]; exact hj)]
      rw [hfilter_eq P0 (fun a ha => (hmemP0 a ha).2),
        hfilter_eq S0 (fun a ha => (hmemS0 a ha).2)]
      rw [← List.filter_append, hP0S0]
      rfl
  have hml2le : ml2 ≤ MAX_LEVEL - 1 := by
    rw [hml2def]
    have h1 := hr.hml
    split <;> omega
  have hmlml2 : s.max_level_ ≤ ml2 ∧ nl ≤ ml2 := by
    rw [hml2def]
    constructor <;> (split <;> omega)
  have hsorted2 : l0n.Pairwise (fun a b => nodeVal s2 a < nodeVal s2 b) := by
    rw [hl0ndef, List.pairwise_append]
    refine ⟨?_, ?_, ?_⟩
    · have hP0p : P0.Pairwise (fun a b => nodeVal s a < nodeVal s b) :=
        List.Pairwise.sublist hP0sub hr.hsorted
      exact pairwise_mem_imp hP0p (fun a ha b hb hlt => by
        rw [(hpres a (hmemP0 a ha).2).1, (hpres b (hmemP0 b hb).2).1]
        exact hlt)
    · rw [List.pairwise_cons]
      constructor
      · intro b hb
        rw [hnewval, (hpres b (hmemS0 b hb).2).1]
        exact hvalS0 b hb
      · have hS0p : S0.Pairwise (fun a b => nodeVal s a < nodeVal s b) :=
          List.Pairwise.sublist hS0sub hr.hsorted
        exact pairwise_mem_imp hS0p (fun a ha b hb hlt => by
          rw [(hpres a (hmemS0 a ha).2).1, (hpres b (hmemS0 b hb).2).1]
          exact hlt)
    · intro a ha b hb
      rcases List.mem_cons.mp hb with h0 | hbS
      · rw [h0, hnewval, (hpres a (hmemP0 a ha).2).1]
        exact hvalP0 a ha
      · rw [(hpres a (hmemP0 a ha).2).1, (hpres b (hmemS0 b hbS).2).1]
        exact lt_trans (hvalP0 a ha) (hvalS0 b hbS)
  have hvalid2 : ∀ idx ∈ l0n, 0 < idx ∧ idx < s2.nodes.length ∧
      (getNode s2 idx).forward.length = nodeLvl s2 idx + 1 ∧
      nodeLvl s2 idx ≤ s2.max_level_ := by
    intro idx hidx
    have hm2 : s2.max_level_ = ml2 := rfl
    rw [hl0ndef, List.mem_append, List.mem_cons] at hidx
    have hocase : idx = n ∨ idx ∈ l0 := by
      rcases hidx with h | h
      · right; exact hP0sub.subset h
      · rcases h with h | h
        · left; exact h
        · right; exact hS0sub.subset h
    rcases hocase with h | h
    · subst h
      refine ⟨hn0, by rw [hs2len]; omega, ?_, ?_⟩
      · rw [hnewlen, hnewlvl]
      · rw [hnewlvl, hm2]
        exact hmlml2.2
    · have hb := rep_mem_lt hr h
      have hv := hr.hvalid idx h
      refine ⟨hb.1, by rw [hs2len]; omega, ?_, ?_⟩
      · rw [(hpres idx hb.2).2.2, (hpres idx hb.2).2.1]
        exact hv.2.2.1
      · rw [(hpres idx hb.2).2.1, hm2]
        exact le_trans hv.2.2.2 hmlml2.1
  have hsize2 : s2.size_ = l0n.length := by
    show s.size_ + 1 = l0n.length
    rw [hl0ndef, List.length_append, List.length_cons, hr.hsize, ← hP0S0,
      List.length_append]
    omega
  have hvals2 : valsOf s2 l0n = valsOf s P0 ++ key :: valsOf s S0 := by
    rw [hl0ndef, valsOf, List.map_append, List.map_cons, valsOf, valsOf]
    congr 1
    · exact List.map_congr_left (fun a ha => (hpres a (hmemP0 a ha).2).1)
    · rw [hnewval, List.map_congr_left (fun a ha => (hpres a (hmemS0 a ha).2).1)]
  rw [hres1, hres2]
  refine ⟨?_, hvals2, rfl⟩
  refine ⟨?_, ?_, ?_, ?_, hml2le, hchain2, hsorted2, hvalid2, hsize2⟩
  · have hpos : 0 < s2.nodes.length := by rw [hs2len]; omega
    exact List.length_pos.mp hpos
  · show (getNode s2 0).level = MAX_LEVEL
    have h1 : nodeLvl s2 0 = nodeLvl s 0 := (hpres 0 hn0).2.1
    rw [show (getNode s2 0).level = nodeLvl s2 0 from rfl, h1]
    exact hr.hheadLvl
  · show MAX_LEVEL ≤ (getNode s2 0).forward.length
    rw [(hpres 0 hn0).2.2]
    exact hr.hheadLenLo
  · show (getNode s2 0).forward.length ≤ MAX_LEVEL + 1
    rw [(hpres 0 hn0).2.2]
    exact hr.hheadLenHi

/-! Behaviour of insert_impl on the two branches, and invariant preservation
for every public mutation. -/

theorem insert_impl_dup {s : skip_list α} {l0 : List Nat} (hr : Rep s l0) {key : α}
    {idx : Nat} (hmem : idx ∈ l0) (hval : nodeVal s idx = key) (lvl : Nat) :
    insert_impl s key lvl = (s, some idx, false) := by
  simp only [insert_impl]
  rw [descendUpd_fst, descend_full hr (downClosed_ltKey key),
    next_pw0 hr (downClosed_ltKey key), head_drop_of_mem hr hmem hval]
  have hv : (getNode s idx).value = key := hval
  simp [hv]

theorem insert_impl_new {s : skip_list α} {l0 : List Nat} (hr : Rep s l0) (key : α)
    (nl : Nat) (hnm : key ∉ valsOf s l0) :
    insert_impl s key nl = insertNew s key nl
      (descendUpd s key s.max_level_ 0 (List.replicate MAX_LEVEL 0)).2 := by
  simp only [insert_impl]
  rw [descendUpd_fst, descend_full hr (downClosed_ltKey key),
    next_pw0 hr (downClosed_ltKey key)]
  cases hc : (l0.dropWhile (fun idx => ltKey key (nodeVal s idx))).head? with
  | none => rfl
  | some c =>
    have hlt : key < (getNode s c).value := (head_drop_of_not_mem hr hnm hc).2
    have h2 : ¬ (¬ key < (getNode s c).value ∧ ¬ (getNode s c).value < key) :=
      fun h => h.1 hlt
    simp only [h2, if_false]

theorem insert_step {s : skip_list α} {l0 : List Nat} (hr : Rep s l0) (key : α)
    {nl : Nat} (hnl : nl ≤ MAX_LEVEL - 1) :
    ∃ l0', Rep (insert_impl s key nl).1 l0' ∧
      (valsOf (insert_impl s key nl).1 l0').toFinset =
        insert key (valsOf s l0).toFinset := by
  by_cases hmem : key ∈ valsOf s l0
  · obtain ⟨idx, hidx, hv⟩ := List.mem_map.mp hmem
    rw [insert_impl_dup hr hidx hv]
    exact ⟨l0, hr, by
      rw [Finset.insert_eq_self.mpr]
      exact List.mem_toFinset.mpr hmem⟩
  · rw [insert_impl_new hr key nl hmem]
    obtain ⟨hrep, hvals, _⟩ := insertNew_rep hr key hnl hmem
    refine ⟨_, hrep, ?_⟩
    rw [hvals, List.toFinset_append, List.toFinset_cons, Finset.union_insert,
      ← List.toFinset_append]
    have hPS : valsOf s (l0.takeWhile (fun idx => ltKey key (nodeVal s idx))) ++
        valsOf s (l0.dropWhile (fun idx => ltKey key (nodeVal s idx))) = valsOf s l0 := by
      simp only [valsOf]
      rw [← List.map_append, List.takeWhile_append_dropWhile]
    rw [hPS]

theorem chainAux_none (s : skip_list α) (i fuel : Nat) :
    chainAux s i fuel none = some [] := by
  cases fuel <;> rfl

theorem rep_newList : Rep (newList α) [] := by
  refine ⟨by simp [newList], rfl, ?_, ?_, ?_, ?_, List.Pairwise.nil, ?_, rfl⟩
  · show MAX_LEVEL ≤ (List.replicate (MAX_LEVEL + 1) (none : Option Nat)).length
    simp
  · show (List.replicate (MAX_LEVEL + 1) (none : Option Nat)).length ≤ MAX_LEVEL + 1
    simp
  · show (0 : Nat) ≤ MAX_LEVEL - 1
    omega
  · intro i
    have hhf : headFwd (newList α) i = none := by
      show (getNode (newList α) 0).forward.getD i none = none
      show (List.replicate (MAX_LEVEL + 1) (none : Option Nat)).getD i none = none
      rw [getD_replicate]
      split <;> rfl
    unfold levelChain?
    rw [hhf, chainAux_none]
    rfl
  · intro idx hidx
    simp at hidx

theorem rep_clear {s : skip_list α} {l0 : List Nat} (hr : Rep s l0) :
    Rep (clear s) [] := by
  have hn0 : 0 < s.nodes.length := List.length_pos.mpr hr.hne
  have hhead : getNode (clear s) 0 =
      { getNode s 0 with forward := List.replicate MAX_LEVEL none } := by
    show (s.nodes.set 0 _).getD 0 dummyNode = _
    rw [getD_set_self _ _ _ _ hn0]
    rfl
  refine ⟨?_, ?_, ?_, ?_, ?_, ?_, List.Pairwise.nil, ?_, rfl⟩
  · show s.nodes.set 0 _ ≠ []
    intro he
    have h2 := congrArg List.length he
    rw [List.length_set] at h2
    simp only [List.length_nil] at h2
    omega
  · show (getNode (clear s) 0).level = MAX_LEVEL
    rw [hhead]
    exact hr.hheadLvl
  · show MAX_LEVEL ≤ (getNode (clear s) 0).forward.length
    rw [hhead]
    simp
  · show (getNode (clear s) 0).forward.length ≤ MAX_LEVEL + 1
    rw [hhead]
    simp
  · show (0 : Nat) ≤ MAX_LEVEL - 1
    omega
  · intro i
    have hhf : headFwd (clear s) i = none := by
      show (getNode (clear s) 0).forward.getD i none = none
      rw [hhead]
      show (List.replicate MAX_LEVEL (none : Option Nat)).getD i none = none
      rw [getD_replicate]
      split <;> rfl
    unfold levelChain?
    rw [hhf, chainAux_none]
    rfl
  · intro idx hidx
    simp at hidx

theorem reachable_rep {s : skip_list α} (h : Reachable s) : ∃ l0, Rep s l0 := by
  induction h with
  | base => exact ⟨[], rep_newList⟩
  | ins s1 key lvl _ hlvl ih =>
    obtain ⟨l0, hr⟩ := ih
    obtain ⟨l0', hr', _⟩ := insert_step hr key hlvl
    exact ⟨l0', hr'⟩
  | clr s1 _ ih =>
    obtain ⟨l0, hr⟩ := ih
    exact ⟨[], rep_clear hr⟩

/-! The iteration protocol follows the level-0 chain. -/

theorem iterListAux_none (s : skip_list α) (fuel : Nat) :
    iterListAux s fuel none = some [] := by
  cases fuel <;> rfl

theorem iterListAux_chain {s : skip_list α} :
    ∀ {l : List Nat} {p : Option Nat} {fuel : Nat},
      IsChain s 0 p l → (∀ a ∈ l, (getNode s a).forward ≠ []) → l.length ≤ fuel →
      iterListAux s fuel p = some (l.map (nodeVal s)) := by
  intro l
  induction l with
  | nil =>
    intro p fuel h _ _
    have hp : p = none := h
    rw [hp, iterListAux_none]
    rfl
  | cons a t ih =>
    intro p fuel h hfwd hlen
    obtain ⟨hp, ht⟩ := h
    cases fuel with
    | zero => simp at hlen
    | succ f =>
      subst hp
      have hsucc : iterSucc s (some a) = next s a 0 := by
        rw [iterSucc]
        rw [if_neg (by
          simp only [List.isEmpty_iff]
          exact hfwd a (by simp))]
        rfl
      simp only [iterListAux, hsucc]
      rw [ih ht (fun b hb => hfwd b (by simp [hb])) (by simpa using hlen)]
      rfl

theorem iteration_eq {s : skip_list α} {l0 : List Nat} (hr : Rep s l0) :
    iteration s = some (valsOf s l0) := by
  unfold iteration
  refine iterListAux_chain (rep_l0_chain hr) ?_ ?_
  · intro a ha
    have := (hr.hvalid a ha).2.2.1
    intro he
    rw [he] at this
    simp at this
  · refine length_le_of_nodup_bounded (rep_nodup hr) ?_
    intro idx hidx
    exact (rep_mem_lt hr hidx).2

theorem valsOf_pairwise {s : skip_list α} {l0 : List Nat} (hr : Rep s l0) :
    (valsOf s l0).Pairwise (· < ·) := by
  rw [valsOf, List.pairwise_map]
  exact hr.hsorted

/-- A strictly sorted list is the canonical sorted enumeration of its
element set. -/
theorem sorted_eq_sort {K : Finset α} {v : List α} (hs : v.Pairwise (· < ·))
    (ht : v.toFinset = K) : v = K.sort (· ≤ ·) := by
  have hnd : v.Nodup := by
    refine hs.imp ?_
    intro a b h he
    rw [he] at h
    exact absurd h (lt_irrefl _)
  have hperm : v.Perm (K.sort (· ≤ ·)) := by
    refine List.perm_of_nodup_nodup_toFinset_eq hnd (Finset.sort_nodup _ _) ?_
    rw [ht, Finset.sort_toFinset]
  exact List.eq_of_perm_of_sorted hperm (hs.imp le_of_lt) (Finset.sort_sorted _ _)

theorem insertMany_rep :
    ∀ (l : List (α × Nat)) (s : skip_list α) (l0 : List Nat), Rep s l0 →
      (∀ kv ∈ l, kv.2 ≤ MAX_LEVEL - 1) →
      ∃ l0', Rep (insertMany s l) l0' ∧
        (valsOf (insertMany s l) l0').toFinset =
          (valsOf s l0).toFinset ∪ (l.map Prod.fst).toFinset := by
  intro l
  induction l with
  | nil =>
    intro s l0 hr _
    exact ⟨l0, hr, by simp [insertMany]⟩
  | cons kv t ih =>
    intro s l0 hr hl
    have hstep : insertMany s (kv :: t) = insertMany (insert_impl s kv.1 kv.2).1 t := rfl
    obtain ⟨l1, hr1, ht1⟩ := insert_step hr kv.1 (hl kv (by simp))
    obtain ⟨l2, hr2, ht2⟩ := ih (insert_impl s kv.1 kv.2).1 l1 hr1
      (fun x hx => hl x (by simp [hx]))
    refine ⟨l2, hstep ▸ hr2, ?_⟩
    rw [hstep, ht2, ht1, List.map_cons, List.toFinset_cons, Finset.insert_union,
      Finset.union_insert]

/-! Characterization of random_level over the draw outcomes. -/

theorem rlAux_le_cap (b : Nat → Bool) :
    ∀ (fuel k : Nat), k ≤ MAX_LEVEL - 1 → rlAux b fuel k ≤ MAX_LEVEL - 1 := by
  intro fuel
  induction fuel with
  | zero => intro k hk; exact hk
  | succ f ih =>
    intro k hk
    rw [rlAux]
    split
    · next hcond => exact ih (k + 1) (by omega)
    · exact hk

theorem random_level_le (b : Nat → Bool) : random_level b ≤ MAX_LEVEL - 1 :=
  rlAux_le_cap b (MAX_LEVEL - 1) 0 (by omega)

theorem rlAux_eq_of_false (b : Nat → Bool) {L : Nat} (hL : L < MAX_LEVEL - 1) :
    ∀ (fuel k : Nat), k ≤ L → L ≤ k + fuel →
      (∀ i, k ≤ i → i < L → b i = true) → b L = false → rlAux b fuel k = L := by
  intro fuel
  induction fuel with
  | zero =>
    intro k h1 h2 _ _
    have h0 : rlAux b 0 k = k := rfl
    omega
  | succ f ih =>
    intro k h1 h2 htrue hfalse
    rw [rlAux]
    by_cases hk : k = L
    · subst hk
      rw [if_neg (by simp [hfalse])]
    · have hklt : k < L := by omega
      rw [if_pos ⟨htrue k (le_refl k) hklt, by omega⟩]
      exact ih (k + 1) (by omega) (by omega) (fun i hi1 hi2 => htrue i (by omega) hi2) hfalse

theorem rlAux_eq_cap (b : Nat → Bool) :
    ∀ (fuel k : Nat), k + fuel = MAX_LEVEL - 1 →
      (∀ i, k ≤ i → i < MAX_LEVEL - 1 → b i = true) → rlAux b fuel k = MAX_LEVEL - 1 := by
  intro fuel
  induction fuel with
  | zero =>
    intro k h1 _
    have h0 : rlAux b 0 k = k := rfl
    omega
  | succ f ih =>
    intro k h1 htrue
    rw [rlAux, if_pos ⟨htrue k (le_refl k) (by omega), by omega⟩]
    exact ih (k + 1) (by omega) (fun i hi1 hi2 => htrue i (by omega) hi2)

theorem rlAux_true_below (b : Nat → Bool) :
    ∀ (fuel k i : Nat), k ≤ i → i < rlAux b fuel k → b i = true := by
  intro fuel
  induction fuel with
  | zero =>
    intro k i h1 h2
    have h0 : rlAux b 0 k = k := rfl
    rw [h0] at h2
    omega
  | succ f ih =>
    intro k i h1 h2
    rw [rlAux] at h2
    by_cases hcond : b k = true ∧ k < MAX_LEVEL - 1
    · rw [if_pos hcond] at h2
      by_cases hik : i = k
      · rw [hik]; exact hcond.1
      · exact ih (k + 1) i (by omega) h2
    · rw [if_neg hcond] at h2
      omega

theorem rlAux_false_at (b : Nat → Bool) :
    ∀ (fuel k : Nat), rlAux b fuel k < k + fuel → rlAux b fuel k < MAX_LEVEL - 1 →
      b (rlAux b fuel k) = false := by
  intro fuel
  induction fuel with
  | zero =>
    intro k h1 _
    have h0 : rlAux b 0 k = k := rfl
    rw [h0] at h1
    omega
  | succ f ih =>
    intro k h1 h2
    rw [rlAux] at h1 h2 ⊢
    by_cases hcond : b k = true ∧ k < MAX_LEVEL - 1
    · rw [if_pos hcond] at h1 h2 ⊢
      exact ih (k + 1) (by omega) h2
    · rw [if_neg hcond] at h1 h2 ⊢
      rcases not_and_or.mp hcond with hb | hk
      · simpa using hb
      · omega

theorem random_level_eq_iff (b : Nat → Bool) {L : Nat} (hL : L < MAX_LEVEL - 1) :
    random_level b = L ↔ (∀ i, i < L → b i = true) ∧ b L = false := by
  constructor
  · intro h
    refine ⟨fun i hi => rlAux_true_below b (MAX_LEVEL - 1) 0 i (by omega) (by rw [show rlAux b (MAX_LEVEL - 1) 0 = random_level b from rfl, h]; omega), ?_⟩
    have := rlAux_false_at b (MAX_LEVEL - 1) 0
    rw [show rlAux b (MAX_LEVEL - 1) 0 = random_level b from rfl, h] at this
    exact this (by omega) hL
  · intro ⟨h1, h2⟩
    exact rlAux_eq_of_false b hL (MAX_LEVEL - 1) 0 (by omega) (by omega)
      (fun i _ hi => h1 i hi) h2

theorem random_level_eq_cap_iff (b : Nat → Bool) :
    random_level b = MAX_LEVEL - 1 ↔ ∀ i, i < MAX_LEVEL - 1 → b i = true := by
  constructor
  · intro h i hi
    exact rlAux_true_below b (MAX_LEVEL - 1) 0 i (by omega)
      (by rw [show rlAux b (MAX_LEVEL - 1) 0 = random_level b from rfl, h]; omega)
  · intro h
    exact rlAux_eq_cap b (MAX_LEVEL - 1) 0 (by omega) (fun i _ hi => h i hi)

theorem randomLevelOfDraws_eq_iff {n L : Nat} (hL : L < MAX_LEVEL - 1) (hn : L < n)
    (f : Fin n → Fin 4) :
    randomLevelOfDraws n f = L ↔
      ((∀ i (h2 : i < L), f ⟨i, by omega⟩ = 0) ∧ f ⟨L, hn⟩ ≠ 0) := by
  rw [randomLevelOfDraws, random_level_eq_iff _ hL]
  constructor
  · intro ⟨h1, h2⟩
    constructor
    · intro i hi
      have := h1 i hi
      rw [dif_pos (by omega : i < n)] at this
      simpa [drawBelowP] using this
    · intro he
      rw [dif_pos hn] at h2
      simp [drawBelowP, he] at h2
  · intro ⟨h1, h2⟩
    constructor
    · intro i hi
      rw [dif_pos (by omega : i < n)]
      simp [drawBelowP]
      exact h1 i hi
    · rw [dif_pos hn]
      simpa [drawBelowP] using h2

theorem card_level_eq {L : Nat} (hL : L < MAX_LEVEL - 1) :
    (Finset.univ.filter (fun f : Fin (L + 1) → Fin 4 =>
      randomLevelOfDraws (L + 1) f = L)).card = 3 := by
  have hLlt : L < L + 1 := by omega
  have hcard3 : (Finset.univ.filter (fun d : Fin 4 => d ≠ 0)).card = 3 := by decide
  rw [← hcard3]
  refine Finset.card_bij' (fun f _ => f ⟨L, hLlt⟩)
    (fun d _ => fun x => if (x : Nat) = L then d else 0) ?_ ?_ ?_ ?_
  · intro f hf
    rw [Finset.mem_filter] at hf ⊢
    refine ⟨Finset.mem_univ _, ?_⟩
    exact ((randomLevelOfDraws_eq_iff hL hLlt f).mp hf.2).2
  · intro d hd
    rw [Finset.mem_filter] at hd ⊢
    refine ⟨Finset.mem_univ _, ?_⟩
    rw [randomLevelOfDraws_eq_iff hL hLlt]
    constructor
    · intro i hi
      show (if (i : Nat) = L then d else 0) = 0
      rw [if_neg (by omega)]
    · show (if (L : Nat) = L then d else 0) ≠ 0
      rw [if_pos rfl]
      exact hd.2
  · intro f hf
    rw [Finset.mem_filter] at hf
    have hch := (randomLevelOfDraws_eq_iff hL hLlt f).mp hf.2
    funext x
    show (if (x : Nat) = L then f ⟨L, hLlt⟩ else 0) = f x
    by_cases hx : (x : Nat) = L
    · rw [if_pos hx]
      congr 1
      exact (Fin.ext hx).symm
    · rw [if_neg hx]
      have hxlt : (x : Nat) < L := by
        have := x.isLt
        omega
      exact (hch.1 x hxlt).symm
  · intro d _
    show (if (L : Nat) = L then d else 0) = d
    rw [if_pos rfl]

set_option maxRecDepth 4000 in
theorem card_level_cap :
    (Finset.univ.filter (fun f : Fin (MAX_LEVEL - 1) → Fin 4 =>
      randomLevelOfDraws (MAX_LEVEL - 1) f = MAX_LEVEL - 1)).card = 1 := by
  rw [Finset.card_eq_one]
  refine ⟨fun _ => 0, ?_⟩
  ext f
  rw [Finset.mem_filter, Finset.mem_singleton]
  constructor
  · intro ⟨_, hf⟩
    rw [randomLevelOfDraws, random_level_eq_cap_iff] at hf
    funext x
    have := hf x x.isLt
    rw [dif_pos x.isLt] at this
    simpa [drawBelowP] using this
  · intro hf
    refine ⟨Finset.mem_univ _, ?_⟩
    rw [randomLevelOfDraws, random_level_eq_cap_iff]
    intro i hi
    rw [dif_pos hi]
    simp [drawBelowP, hf]

/-! The lexicographic comparison implements the Lex order on value lists. -/

theorem lexLt_iff : ∀ (l m : List α), lexLt l m = true ↔ List.Lex (· < ·) l m := by
  intro l
  induction l with
  | nil =>
    intro m
    cases m with
    | nil =>
      refine iff_of_false (by simp [lexLt]) ?_
      intro h
      cases h
    | cons b t => exact iff_of_true rfl List.Lex.nil
  | cons a l ih =>
    intro m
    cases m with
    | nil =>
      refine iff_of_false (by simp [lexLt]) ?_
      intro h
      cases h
    | cons b t =>
      simp only [lexLt]
      by_cases h1 : a < b
      · rw [if_pos h1]
        exact iff_of_true rfl (List.Lex.rel h1)
      · rw [if_neg h1]
        by_cases h2 : b < a
        · rw [if_pos h2]
          refine iff_of_false (by simp) ?_
          intro h
          cases h with
          | rel h3 => exact h1 h3
          | cons h3 => exact absurd h2 (lt_irrefl a)
        · rw [if_neg h2]
          have h3 : a = b := le_antisymm (not_lt.mp h2) (not_lt.mp h1)
          subst h3
          rw [ih t]
          constructor
          · exact List.Lex.cons
          · intro h
            cases h with
            | rel h4 => exact absurd h4 (lt_irrefl a)
            | cons h4 => exact h4

theorem pairwise_lt_nodup {v : List α} (hs : v.Pairwise (· < ·)) : v.Nodup := by
  refine hs.imp ?_
  intro a b h he
  rw [he] at h
  exact absurd h (lt_irrefl _)

/-- Shared canonical form: inserting any key sequence into an empty list
yields the sorted enumeration of the distinct keys, with matching size. -/
theorem insertMany_canonical (l : List (α × Nat)) (hl : ∀ kv ∈ l, kv.2 ≤ MAX_LEVEL - 1) :
    iteration (insertMany (newList α) l) =
      some (((l.map Prod.fst).toFinset).sort (· ≤ ·)) ∧
    size (insertMany (newList α) l) = (l.map Prod.fst).toFinset.card := by
  obtain ⟨l0', hr', hts⟩ := insertMany_rep l (newList α) [] rep_newList hl
  have hts2 : (valsOf (insertMany (newList α) l) l0').toFinset =
      (l.map Prod.fst).toFinset := by
    rw [hts]
    have hz : valsOf (newList α) ([] : List Nat) = [] := rfl
    rw [hz]
    simp
  have hsorted := valsOf_pairwise hr'
  have hnd := pairwise_lt_nodup hsorted
  have hcan := sorted_eq_sort hsorted hts2
  constructor
  · rw [iteration_eq hr', hcan]
  · have h1 : (valsOf (insertMany (newList α) l) l0').length = l0'.length :=
      List.length_map _ _
    show (insertMany (newList α) l).size_ = _
    rw [hr'.hsize, ← h1, ← List.toFinset_card_of_nodup hnd, hts2]

/-- C1: for every finite sequence of keys inserted (with the levels drawn by
the level generator, each at most MAX_LEVEL - 1) into an initially empty
skip_list, iterating from begin() to end() visits exactly the distinct keys
of the sequence in strictly ascending comparator order, and size() equals
the number of distinct keys. -/
theorem c1_iteration_sorted_distinct (l : List (α × Nat))
    (hl : ∀ kv ∈ l, kv.2 ≤ MAX_LEVEL - 1) :
    iteration (insertMany (newList α) l) =
      some (((l.map Prod.fst).toFinset).sort (· ≤ ·)) ∧
    size (insertMany (newList α) l) = (l.map Prod.fst).toFinset.card :=
  insertMany_canonical l hl

/-- Witness for C1 at the spec's own example 3,1,4,1,5: iteration 1,3,4,5
and size 4. -/
theorem c1_witness :
    iteration (insertMany (newList Int) [(3, 0), (1, 1), (4, 0), (1, 0), (5, 2)]) =
      some ((([(3, 0), (1, 1), (4, 0), (1, 0), (5, 2)].map
        (Prod.fst : Int × Nat → Int)).toFinset).sort (· ≤ ·)) ∧
    size (insertMany (newList Int) [(3, 0), (1, 1), (4, 0), (1, 0), (5, 2)]) =
      ([(3, 0), (1, 1), (4, 0), (1, 0), (5, 2)].map
        (Prod.fst : Int × Nat → Int)).toFinset.card :=
  c1_iteration_sorted_distinct _ (by decide)

/-- C2: in every reachable state, each chain at a level up to the current
max level is strictly increasing under the comparator and a subsequence of
the index-0 chain, and the index-0 chain is duplicate-free, ascending, and
contains every node reachable at any level. -/
theorem c2_chain_invariants (s : skip_list α) (h : Reachable s) :
    ∀ i, i ≤ s.max_level_ →
    ∃ ci c0, levelChain? s i = some ci ∧ levelChain? s 0 = some c0 ∧
      ci.Pairwise (fun a b => nodeVal s a < nodeVal s b) ∧
      ci.Sublist c0 ∧
      c0.Pairwise (fun a b => nodeVal s a < nodeVal s b) ∧ c0.Nodup ∧
      (∀ j cj, levelChain? s j = some cj → ∀ idx ∈ cj, idx ∈ c0) := by
  obtain ⟨l0, hr⟩ := reachable_rep h
  intro i _
  have h0 : levelChain? s 0 = some l0 := by
    rw [hr.hchain 0]
    show some (restrict s l0 0) = some l0
    rw [restrict_zero]
  refine ⟨restrict s l0 i, l0, hr.hchain i, h0, rep_sorted_restrict hr i,
    restrict_sublist l0 i, hr.hsorted, rep_nodup hr, ?_⟩
  intro j cj hcj idx hidx
  rw [hr.hchain j] at hcj
  have hcj2 : cj = restrict s l0 j := (Option.some.injEq _ _).mp hcj.symm
  rw [hcj2] at hidx
  exact (restrict_sublist l0 j).subset hidx

/-- Witness for C2 at the empty reachable state and level 0. -/
theorem c2_witness :
    ∃ ci c0, levelChain? (newList Int) 0 = some ci ∧
      levelChain? (newList Int) 0 = some c0 ∧
      ci.Pairwise (fun a b => nodeVal (newList Int) a < nodeVal (newList Int) b) ∧
      ci.Sublist c0 ∧
      c0.Pairwise (fun a b => nodeVal (newList Int) a < nodeVal (newList Int) b) ∧
      c0.Nodup ∧
      (∀ j cj, levelChain? (newList Int) j = some cj → ∀ idx ∈ cj, idx ∈ c0) :=
  c2_chain_invariants (newList Int) Reachable.base 0 (le_refl 0)

/-- C3: inserting a value that compares equal to an element already present
returns that element's position with inserted = false and leaves the whole
structure (arena, size, max level, hence every forward link) unchanged. -/
theorem c3_duplicate_insert (s : skip_list α) (h : Reachable s) (key : α) (lvl : Nat)
    (hkey : key ∈ valsD s) :
    ∃ idx, iterDeref s (some idx) = Except.ok key ∧
      insert_impl s key lvl = (s, some idx, false) := by
  obtain ⟨l0, hr⟩ := reachable_rep h
  have hvd : valsD s = valsOf s l0 := by
    rw [valsD, iteration_eq hr]
    rfl
  rw [hvd] at hkey
  obtain ⟨idx, hidx, hv⟩ := List.mem_map.mp hkey
  refine ⟨idx, ?_, insert_impl_dup hr hidx hv lvl⟩
  show Except.ok (getNode s idx).value = Except.ok key
  rw [show (getNode s idx).value = key from hv]

/-- Witness for C3: inserting 5 again into a list already holding 5. -/
theorem c3_witness :
    ∃ idx, iterDeref ((insert_impl (newList Int) 5 0).1) (some idx) = Except.ok 5 ∧
      insert_impl ((insert_impl (newList Int) 5 0).1) 5 3 =
        ((insert_impl (newList Int) 5 0).1, some idx, false) :=
  c3_duplicate_insert ((insert_impl (newList Int) 5 0).1)
    (Reachable.ins (newList Int) 5 0 Reachable.base (by decide)) 5 3 (by decide)

/-- C4: lower_bound returns the first iteration position whose value is not
below the key, upper_bound the first strictly above it, equal_range is
exactly their pair, and the range they delimit holds at most one element. -/
theorem c4_bound_queries (s : skip_list α) (h : Reachable s) (key : α) :
    ∃ c0, levelChain? s 0 = some c0 ∧
      lower_bound_impl s key =
        c0.find? (fun idx => decide (¬ (getNode s idx).value < key)) ∧
      upper_bound_impl s key =
        c0.find? (fun idx => decide (key < (getNode s idx).value)) ∧
      equal_range s key = (lower_bound_impl s key, upper_bound_impl s key) ∧
      (c0.filter (fun idx =>
        decide (¬ (getNode s idx).value < key ∧ ¬ key < (getNode s idx).value))).length ≤ 1 := by
  obtain ⟨l0, hr⟩ := reachable_rep h
  have h0 : levelChain? s 0 = some l0 := by
    rw [hr.hchain 0]
    show some (restrict s l0 0) = some l0
    rw [restrict_zero]
  refine ⟨l0, h0, ?_, ?_, rfl, ?_⟩
  · rw [lower_bound_drop hr key, head?_dropWhile_eq_find?]
    congr 1
    funext idx
    show (! ltKey key (nodeVal s idx)) = decide (¬ (getNode s idx).value < key)
    rw [decide_not]
    rfl
  · rw [upper_bound_drop hr key, head?_dropWhile_eq_find?]
    congr 1
    funext idx
    show (! leKey key (nodeVal s idx)) = decide (key < (getNode s idx).value)
    show (! (decide (¬ key < (getNode s idx).value))) = decide (key < (getNode s idx).value)
    rw [decide_not, Bool.not_not]
  · have hpred : ∀ idx : Nat,
        (decide (¬ (getNode s idx).value < key ∧ ¬ key < (getNode s idx).value)) =
          decide (nodeVal s idx = key) := by
      intro idx
      rw [decide_eq_decide]
      constructor
      · intro ⟨h1, h2⟩
        exact le_antisymm (not_lt.mp h2) (not_lt.mp h1)
      · intro he
        rw [show (getNode s idx).value = key from he]
        exact ⟨lt_irrefl key, lt_irrefl key⟩
    rw [show (fun idx => decide (¬ (getNode s idx).value < key ∧
        ¬ key < (getNode s idx).value)) =
      (fun idx => decide (nodeVal s idx = key)) from funext hpred]
    exact filter_eq_key_le_one hr key

/-- Witness for C4 on the two-element list 1, 3 with query key 2. -/
theorem c4_witness :
    ∃ c0, levelChain? ((insert_impl ((insert_impl (newList Int) 1 0).1) 3 0).1) 0 =
        some c0 ∧
      lower_bound_impl ((insert_impl ((insert_impl (newList Int) 1 0).1) 3 0).1) 2 =
        c0.find? (fun idx => decide
          (¬ (getNode ((insert_impl ((insert_impl (newList Int) 1 0).1) 3 0).1) idx).value < 2)) ∧
      upper_bound_impl ((insert_impl ((insert_impl (newList Int) 1 0).1) 3 0).1) 2 =
        c0.find? (fun idx => decide
          (2 < (getNode ((insert_impl ((insert_impl (newList Int) 1 0).1) 3 0).1) idx).value)) ∧
      equal_range ((insert_impl ((insert_impl (newList Int) 1 0).1) 3 0).1) 2 =
        (lower_bound_impl ((insert_impl ((insert_impl (newList Int) 1 0).1) 3 0).1) 2,
         upper_bound_impl ((insert_impl ((insert_impl (newList Int) 1 0).1) 3 0).1) 2) ∧
      (c0.filter (fun idx => decide
        (¬ (getNode ((insert_impl ((insert_impl (newList Int) 1 0).1) 3 0).1) idx).value < 2 ∧
         ¬ 2 < (getNode ((insert_impl ((insert_impl (newList Int) 1 0).1) 3 0).1) idx).value))).length ≤ 1 :=
  c4_bound_queries ((insert_impl ((insert_impl (newList Int) 1 0).1) 3 0).1)
    (Reachable.ins _ 3 0 (Reachable.ins (newList Int) 1 0 Reachable.base (by decide))
      (by decide)) 2

/-- C5 counterexample: the claimed distribution P*(1-P)^L fails already at
L = 0: over one uniform draw (four equiprobable outcomes, outcome 0 being a
draw below P = 0.25), the claim demands probability 1/4 for level 0, i.e.
one of the four draw values, but three of the four yield level 0. -/
theorem c5_counterexample :
    (Finset.univ.filter (fun f : Fin 1 → Fin 4 =>
      randomLevelOfDraws 1 f = 0)).card ≠ 1 := by
  decide

/-- C5 amended: the level generator always returns a level at most
MAX_LEVEL - 1; modeling each draw as uniform with P(draw below P) = 1/4, a
level L below the cap occurs with probability (1-P)*P^L (the fraction of
draw sequences shown is 3/4^(L+1)), and the cap with probability
P^(MAX_LEVEL-1); the algorithm increments once per successive draw below P
until a draw fails or the cap is reached. -/
theorem c5_level_distribution :
    (∀ b : Nat → Bool, random_level b ≤ MAX_LEVEL - 1) ∧
    (∀ L : Nat, L < MAX_LEVEL - 1 →
      (Finset.univ.filter (fun f : Fin (L + 1) → Fin 4 =>
        randomLevelOfDraws (L + 1) f = L)).card * 4 ^ (L + 1) =
        3 * (Finset.univ : Finset (Fin (L + 1) → Fin 4)).card) ∧
    (Finset.univ.filter (fun f : Fin (MAX_LEVEL - 1) → Fin 4 =>
      randomLevelOfDraws (MAX_LEVEL - 1) f = MAX_LEVEL - 1)).card *
      4 ^ (MAX_LEVEL - 1) =
      (Finset.univ : Finset (Fin (MAX_LEVEL - 1) → Fin 4)).card := by
  refine ⟨random_level_le, ?_, ?_⟩
  · intro L hL
    have hcardU : (Finset.univ : Finset (Fin (L + 1) → Fin 4)).card = 4 ^ (L + 1) := by
      rw [Finset.card_univ, Fintype.card_fun, Fintype.card_fin, Fintype.card_fin]
    rw [card_level_eq hL, hcardU]
  · have hcardU : (Finset.univ : Finset (Fin (MAX_LEVEL - 1) → Fin 4)).card =
        4 ^ (MAX_LEVEL - 1) := by
      rw [Finset.card_univ, Fintype.card_fun, Fintype.card_fin, Fintype.card_fin]
    rw [card_level_cap, hcardU, one_mul]

/-- Witness for C5 at level 2: 3 of the 64 three-draw sequences yield level
2, matching (1-P)*P^2 = 3/64. -/
theorem c5_witness :
    (Finset.univ.filter (fun f : Fin (2 + 1) → Fin 4 =>
      randomLevelOfDraws (2 + 1) f = 2)).card * 4 ^ (2 + 1) =
      3 * (Finset.univ : Finset (Fin (2 + 1) → Fin 4)).card :=
  c5_level_distribution.2.1 2 (by decide)

/-- C6: dereferencing or member-accessing a null iterator (end or default
constructed) is the one modeled runtime fault; the query and whole-structure
operations are total: a missing key yields end and count 0, a duplicate
insert yields inserted = false, count never exceeds 1, and equal_range,
clear, swap, size and empty are unconditionally defined. -/
theorem c6_error_taxonomy (s : skip_list α) (h : Reachable s) (t : skip_list α)
    (key : α) (lvl : Nat) :
    iterDeref s (none : Option Nat) = Except.error "Dereferencing null iterator" ∧
    iterArrow s (none : Option Nat) = Except.error "Accessing null iterator" ∧
    (∀ idx : Nat, iterDeref s (some idx) = Except.ok (getNode s idx).value) ∧
    (key ∉ valsD s → find_impl s key = none ∧ count s key = 0) ∧
    (key ∈ valsD s → (insert_impl s key lvl).2.2 = false) ∧
    count s key ≤ 1 ∧
    equal_range s key = (lower_bound_impl s key, upper_bound_impl s key) ∧
    size (clear s) = 0 ∧ emptyb (clear s) = true ∧ swap s t = (t, s) := by
  obtain ⟨l0, hr⟩ := reachable_rep h
  have hvd : valsD s = valsOf s l0 := by
    rw [valsD, iteration_eq hr]
    rfl
  refine ⟨rfl, rfl, fun idx => rfl, ?_, ?_, ?_, rfl, rfl, rfl, rfl⟩
  · intro hnm
    rw [hvd] at hnm
    have hf := find_of_not_mem hr hnm
    refine ⟨hf, ?_⟩
    rw [count, hf]
    rfl
  · intro hm
    rw [hvd] at hm
    obtain ⟨idx, hidx, hv⟩ := List.mem_map.mp hm
    rw [insert_impl_dup hr hidx hv lvl]
  · rw [count]
    split <;> omega

/-- Witness for C6 at the empty reachable state. -/
theorem c6_witness :
    iterDeref (newList Int) (none : Option Nat) =
      Except.error "Dereferencing null iterator" ∧
    iterArrow (newList Int) (none : Option Nat) =
      Except.error "Accessing null iterator" ∧
    (∀ idx : Nat, iterDeref (newList Int) (some idx) =
      Except.ok (getNode (newList Int) idx).value) ∧
    ((7 : Int) ∉ valsD (newList Int) →
      find_impl (newList Int) (7 : Int) = none ∧ count (newList Int) (7 : Int) = 0) ∧
    ((7 : Int) ∈ valsD (newList Int) →
      (insert_impl (newList Int) (7 : Int) 0).2.2 = false) ∧
    count (newList Int) (7 : Int) ≤ 1 ∧
    equal_range (newList Int) (7 : Int) =
      (lower_bound_impl (newList Int) (7 : Int),
       upper_bound_impl (newList Int) (7 : Int)) ∧
    size (clear (newList Int)) = 0 ∧ emptyb (clear (newList Int)) = true ∧
    swap (newList Int) (newList Int) = (newList Int, newList Int) :=
  c6_error_taxonomy (newList Int) Reachable.base (newList Int) 7 0

/-- C7 counterexample: on a moved-from list the head handle is a null
shared pointer, so begin() dereferences a null handle (modeled as an error)
rather than returning the end iterator as the claim asserts. -/
theorem c7_counterexample :
    beginE ((moveCtor ((insert_impl (newList Int) 1 0).1)).2) ≠
      Except.ok iterEnd := by
  have he : beginE ((moveCtor ((insert_impl (newList Int) 1 0).1)).2) =
      Except.error "null head" := rfl
  rw [he]
  intro hcon
  exact Except.noConfusion hcon

/-- C7 amended: move construction (and move assignment, which transfers the
same fields) moves the entire state to the destination, which therefore
holds the source's prior size and iteration sequence; the source reports
size() = 0 and empty() = true, but its head handle is null, so begin() on
the moved-from source faults instead of returning end(). -/
theorem c7_move_semantics (s : skip_list α) :
    (moveCtor s).1 = s ∧ size (moveCtor s).2 = 0 ∧ emptyb (moveCtor s).2 = true ∧
    beginE (moveCtor s).2 = Except.error "null head" ∧
    iteration (moveCtor s).1 = iteration s :=
  ⟨rfl, rfl, rfl, rfl, rfl⟩

/-- C8: two skip_lists built from the same multiset of keys, in any two
insertion orders, compare equal under operator==; and the six relational
operators order any two lists by lexicographic comparison of their
iteration sequences. -/
theorem c8_relational_operators (l1 l2 : List (α × Nat))
    (h1 : ∀ kv ∈ l1, kv.2 ≤ MAX_LEVEL - 1) (h2 : ∀ kv ∈ l2, kv.2 ≤ MAX_LEVEL - 1)
    (hperm : (l1.map Prod.fst).Perm (l2.map Prod.fst)) :
    eqOp (insertMany (newList α) l1) (insertMany (newList α) l2) = true ∧
    (∀ s t : skip_list α,
      (ltOp s t = true ↔ List.Lex (· < ·) (valsD s) (valsD t)) ∧
      leOp s t = ! ltOp t s ∧ gtOp s t = ltOp t s ∧ geOp s t = ! ltOp s t ∧
      (eqOp s t = true ↔ size s = size t ∧ valsD s = valsD t) ∧
      neOp s t = ! eqOp s t) := by
  constructor
  · obtain ⟨hit1, hsz1⟩ := insertMany_canonical l1 h1
    obtain ⟨hit2, hsz2⟩ := insertMany_canonical l2 h2
    have hK : (l1.map Prod.fst).toFinset = (l2.map Prod.fst).toFinset :=
      List.toFinset_eq_of_perm _ _ hperm
    have hszeq : (insertMany (newList α) l1).size_ = (insertMany (newList α) l2).size_ := by
      show size (insertMany (newList α) l1) = size (insertMany (newList α) l2)
      rw [hsz1, hsz2, hK]
    rw [eqOp, if_neg (not_not_intro hszeq), decide_eq_true_eq, valsD, valsD,
      hit1, hit2, hK]
  · intro s t
    refine ⟨lexLt_iff _ _, rfl, rfl, rfl, ?_, rfl⟩
    rw [eqOp]
    by_cases hsz : s.size_ ≠ t.size_
    · rw [if_pos hsz]
      exact iff_of_false (by simp) (fun hc => hsz hc.1)
    · rw [if_neg hsz]
      have hsz2 : s.size_ = t.size_ := not_ne_iff.mp hsz
      constructor
      · intro hd
        exact ⟨hsz2, of_decide_eq_true hd⟩
      · intro hc
        exact decide_eq_true hc.2

/-- Witness for C8 on the key multiset 1, 2 inserted in its two orders. -/
theorem c8_witness :
    eqOp (insertMany (newList Int) [(1, 0), (2, 1)])
      (insertMany (newList Int) [(2, 0), (1, 2)]) = true ∧
    (∀ s t : skip_list Int,
      (ltOp s t = true ↔ List.Lex (· < ·) (valsD s) (valsD t)) ∧
      leOp s t = ! ltOp t s ∧ gtOp s t = ltOp t s ∧ geOp s t = ! ltOp s t ∧
      (eqOp s t = true ↔ size s = size t ∧ valsD s = valsD t) ∧
      neOp s t = ! eqOp s t) :=
  c8_relational_operators [(1, 0), (2, 1)] [(2, 0), (1, 2)]
    (by decide) (by decide) (by decide)

/-- C9 counterexample: at construction the sentinel head's forward array has
MAX_LEVEL + 1 slots, because the node constructor resizes the forward vector
to level + 1 and the head is built with level MAX_LEVEL; the claim of
exactly MAX_LEVEL slots fails on the freshly constructed list. -/
theorem c9_counterexample :
    (getNode (newList Int) 0).forward.length ≠ MAX_LEVEL := by
  decide

/-- C9 amended: the head's level is fixed at MAX_LEVEL; its forward array
has between MAX_LEVEL and MAX_LEVEL + 1 slots in every reachable state,
exactly MAX_LEVEL + 1 at construction and exactly MAX_LEVEL after any
clear (which also keeps the level unchanged); and every chain node's
forward array length equals its fixed level + 1. -/
theorem c9_array_sizes (s : skip_list α) (h : Reachable s) :
    (getNode s 0).level = MAX_LEVEL ∧
    MAX_LEVEL ≤ (getNode s 0).forward.length ∧
    (getNode s 0).forward.length ≤ MAX_LEVEL + 1 ∧
    (getNode (newList α) 0).forward.length = MAX_LEVEL + 1 ∧
    (getNode (clear s) 0).forward.length = MAX_LEVEL ∧
    (getNode (clear s) 0).level = (getNode s 0).level ∧
    (∃ c0, levelChain? s 0 = some c0 ∧ ∀ idx ∈ c0,
      (getNode s idx).forward.length = (getNode s idx).level + 1) := by
  obtain ⟨l0, hr⟩ := reachable_rep h
  have hn0 : 0 < s.nodes.length := List.length_pos.mpr hr.hne
  have hclr : getNode (clear s) 0 =
      { getNode s 0 with forward := List.replicate MAX_LEVEL none } := by
    show (s.nodes.set 0 _).getD 0 dummyNode = _
    rw [getD_set_self _ _ _ _ hn0]
    rfl
  have h0 : levelChain? s 0 = some l0 := by
    rw [hr.hchain 0]
    show some (restrict s l0 0) = some l0
    rw [restrict_zero]
  refine ⟨hr.hheadLvl, hr.hheadLenLo, hr.hheadLenHi, ?_, ?_, ?_,
    ⟨l0, h0, fun idx hidx => (hr.hvalid idx hidx).2.2.1⟩⟩
  · show (List.replicate (MAX_LEVEL + 1) (none : Option Nat)).length = MAX_LEVEL + 1
    simp
  · rw [hclr]
    simp
  · rw [hclr]

/-- Witness for C9 at the empty reachable state. -/
theorem c9_witness :
    (getNode (newList Int) 0).level = MAX_LEVEL ∧
    MAX_LEVEL ≤ (getNode (newList Int) 0).forward.length ∧
    (getNode (newList Int) 0).forward.length ≤ MAX_LEVEL + 1 ∧
    (getNode (newList Int) 0).forward.length = MAX_LEVEL + 1 ∧
    (getNode (clear (newList Int)) 0).forward.length = MAX_LEVEL ∧
    (getNode (clear (newList Int)) 0).level = (getNode (newList Int) 0).level ∧
    (∃ c0, levelChain? (newList Int) 0 = some c0 ∧ ∀ idx ∈ c0,
      (getNode (newList Int) idx).forward.length =
        (getNode (newList Int) idx).level + 1) :=
  c9_array_sizes (newList Int) Reachable.base

/-- C10: incrementing an iterator that holds no node (the end iterator or a
default-constructed one) raises no error and stays at end, and incrementing
the iterator at the last element yields end. -/
theorem c10_increment_at_end (s : skip_list α) (h : Reachable s) :
    iterSucc s (none : Option Nat) = none ∧
    (∀ (c0 : List Nat) (hc : levelChain? s 0 = some c0) (hne : c0 ≠ []),
      iterSucc s (some (c0.getLast hne)) = none) := by
  obtain ⟨l0, hr⟩ := reachable_rep h
  refine ⟨rfl, ?_⟩
  intro c0 hc hne
  have h0 : levelChain? s 0 = some l0 := by
    rw [hr.hchain 0]
    show some (restrict s l0 0) = some l0
    rw [restrict_zero]
  have hc0 : c0 = l0 := Option.some.inj (hc.symm.trans h0)
  subst hc0
  have hchain := rep_l0_chain hr
  obtain ⟨q, hq1, hq2⟩ := isPath_split
    (show IsPath s 0 (next s 0 0) (c0.dropLast ++ [c0.getLast hne]) none by
      rw [List.dropLast_append_getLast hne]
      exact hchain)
  obtain ⟨hq3, hq4⟩ := hq2
  have hnext0 : next s (c0.getLast hne) 0 = none := hq4
  show (if (getNode s (c0.getLast hne)).forward.isEmpty then none
    else (getNode s (c0.getLast hne)).forward.getD 0 none) = none
  split
  · rfl
  · exact hnext0

/-- Witness for C10 on the one-element list holding 5. -/
theorem c10_witness :
    iterSucc ((insert_impl (newList Int) 5 0).1) (none : Option Nat) = none ∧
    iterSucc ((insert_impl (newList Int) 5 0).1)
      (some (([1] : List Nat).getLast (by simp))) = none :=
  ⟨(c10_increment_at_end ((insert_impl (newList Int) 5 0).1)
      (Reachable.ins (newList Int) 5 0 Reachable.base (by decide))).1,
   (c10_increment_at_end ((insert_impl (newList Int) 5 0).1)
      (Reachable.ins (newList Int) 5 0 Reachable.base (by decide))).2
     [1] (by decide) (by simp)⟩

end StlSkipList
